import Mathlib

/-!
Verification of the LlamaEdge chat-completion core (`llama-core/src/chat.rs` and
`chat-prompts/src/chat/qwen.rs`) against its natural-language specification.

Strings manipulated by the Rust code are modelled as `List Char`; raw byte
buffers coming from the inference backend are modelled as `List Nat` (each
entry a byte value < 256).  Code points produced by UTF-8 decoding are `Nat`.

The helper functions below mirror the Rust standard-library string primitives
used by `chat.rs` (`trim`, `trim_end_matches`, `trim_start_matches`,
`strip_suffix`, `contains`, `find`, `split(..)[0]`, `starts_with`,
`ends_with`, `replace`), so that `post_process`, `build_prompt`,
`parse_tool_calls`, `update_n_predict` and `compute_stream` can be translated
faithfully.
-/

namespace LlamaEdge

/-- Whitespace predicate matching Rust `char::is_whitespace` on the characters
that actually occur in the templates (space, tab, newline, carriage return). -/
def isWS (c : Char) : Bool :=
  c = ' ' ∨ c = '\t' ∨ c = '\n' ∨ c = '\r'

/-- `leadsWith pat s` is Rust `s.starts_with(pat)`. -/
def leadsWith : List Char → List Char → Bool
  | [], _ => true
  | _ :: _, [] => false
  | p :: ps, c :: cs => p = c && leadsWith ps cs

/-- Index of the first occurrence of `pat` in `s` (Rust `s.find(pat)`). -/
def firstIdx (pat : List Char) : List Char → Option Nat
  | [] => if leadsWith pat [] then some 0 else none
  | c :: t =>
    if leadsWith pat (c :: t) then some 0
    else (firstIdx pat t).map (· + 1)

/-- Rust `s.contains(pat)`. -/
def containsP (pat s : List Char) : Bool :=
  (firstIdx pat s).isSome

/-- Rust `s.ends_with(pat)`. -/
def endsWithP (pat s : List Char) : Bool :=
  leadsWith pat.reverse s.reverse

/-- Left trim: Rust `s.trim_start()`. -/
def trimL (s : List Char) : List Char :=
  s.dropWhile isWS

/-- Right trim: Rust `s.trim_end()`. -/
def trimR (s : List Char) : List Char :=
  (trimL s.reverse).reverse

/-- Rust `s.trim()`. -/
def trim (s : List Char) : List Char :=
  trimR (trimL s)

/-- Fuelled worker for `trimEndMatches`; the fuel only bounds the number of
stripped copies and `s.length` is always enough. -/
def trimEndMatchesF (pat : List Char) : Nat → List Char → List Char
  | 0, s => s
  | fuel + 1, s =>
    if pat ≠ [] ∧ endsWithP pat s then
      trimEndMatchesF pat fuel (s.take (s.length - pat.length))
    else s

/-- Rust `s.trim_end_matches(pat)`: repeatedly strip the suffix `pat`. -/
def trimEndMatches (pat s : List Char) : List Char :=
  trimEndMatchesF pat s.length s

/-- Fuelled worker for `trimStartMatches`. -/
def trimStartMatchesF (pat : List Char) : Nat → List Char → List Char
  | 0, s => s
  | fuel + 1, s =>
    if pat ≠ [] ∧ leadsWith pat s then
      trimStartMatchesF pat fuel (s.drop pat.length)
    else s

/-- Rust `s.trim_start_matches(pat)`: repeatedly strip the prefix `pat`. -/
def trimStartMatches (pat s : List Char) : List Char :=
  trimStartMatchesF pat s.length s

/-- Rust `s.strip_suffix(pat)`: `none` when `pat` is not a suffix. -/
def stripSuffixP (pat s : List Char) : Option (List Char) :=
  if endsWithP pat s then some (s.take (s.length - pat.length)) else none

/-- First element of Rust `s.split(pat).collect::<Vec<_>>()`: the part of `s`
before the first occurrence of `pat` (all of `s` when there is none). -/
def takeBeforeP (pat s : List Char) : List Char :=
  match firstIdx pat s with
  | some i => s.take i
  | none => s

/-- Fuelled worker for `replaceAll`. -/
def replaceAllF (pat rep : List Char) : Nat → List Char → List Char
  | 0, s => s
  | fuel + 1, s =>
    if pat ≠ [] ∧ leadsWith pat s then
      rep ++ replaceAllF pat rep fuel (s.drop pat.length)
    else match s with
      | [] => []
      | c :: t => c :: replaceAllF pat rep fuel t

/-- Rust `s.replace(pat, rep)` for a non-empty pattern: replace every
(leftmost, non-overlapping) occurrence of `pat` by `rep`. -/
def replaceAll (pat rep s : List Char) : List Char :=
  replaceAllF pat rep s.length s

end LlamaEdge

namespace LlamaEdge

/-! ## UTF-8 decoding (Rust `String::from_utf8`)

`utf8Decode` is the exact validation/decoding algorithm of Rust
`String::from_utf8` (standard UTF-8: no overlong forms, no surrogates, max
code point `0x10FFFF`), returning the decoded code points or `none` on
invalid input. -/

/-- Continuation byte `0x80..=0xBF`. -/
def isCont (b : Nat) : Bool :=
  0x80 ≤ b ∧ b ≤ 0xBF

/-- Constraint on the second byte of a 3-byte sequence (excludes overlong
forms for `0xE0` and surrogates for `0xED`). -/
def snd3Ok (b1 b2 : Nat) : Bool :=
  if b1 = 0xE0 then 0xA0 ≤ b2 ∧ b2 ≤ 0xBF
  else if b1 = 0xED then 0x80 ≤ b2 ∧ b2 ≤ 0x9F
  else isCont b2

/-- Constraint on the second byte of a 4-byte sequence (excludes overlong
forms for `0xF0` and code points above `0x10FFFF` for `0xF4`). -/
def snd4Ok (b1 b2 : Nat) : Bool :=
  if b1 = 0xF0 then 0x90 ≤ b2 ∧ b2 ≤ 0xBF
  else if b1 = 0xF4 then 0x80 ≤ b2 ∧ b2 ≤ 0x8F
  else isCont b2

/-- Code point of a 2-byte sequence. -/
def cp2 (b1 b2 : Nat) : Nat := (b1 - 0xC0) * 64 + (b2 - 0x80)

/-- Code point of a 3-byte sequence. -/
def cp3 (b1 b2 b3 : Nat) : Nat := (b1 - 0xE0) * 4096 + (b2 - 0x80) * 64 + (b3 - 0x80)

/-- Code point of a 4-byte sequence. -/
def cp4 (b1 b2 b3 b4 : Nat) : Nat :=
  (b1 - 0xF0) * 262144 + (b2 - 0x80) * 4096 + (b3 - 0x80) * 64 + (b4 - 0x80)

/-- UTF-8 decoding of a byte list into code points; `none` on invalid input. -/
def utf8Decode : List Nat → Option (List Nat)
  | [] => some []
  | b1 :: rest =>
    if b1 ≤ 0x7F then
      (utf8Decode rest).map (b1 :: ·)
    else if 0xC2 ≤ b1 ∧ b1 ≤ 0xDF then
      match rest with
      | b2 :: r2 =>
        if isCont b2 then (utf8Decode r2).map (cp2 b1 b2 :: ·) else none
      | [] => none
    else if 0xE0 ≤ b1 ∧ b1 ≤ 0xEF then
      match rest with
      | b2 :: b3 :: r3 =>
        if snd3Ok b1 b2 ∧ isCont b3 then
          (utf8Decode r3).map (cp3 b1 b2 b3 :: ·)
        else none
      | _ => none
    else if 0xF0 ≤ b1 ∧ b1 ≤ 0xF4 then
      match rest with
      | b2 :: b3 :: b4 :: r4 =>
        if snd4Ok b1 b2 ∧ isCont b3 ∧ isCont b4 then
          (utf8Decode r4).map (cp4 b1 b2 b3 b4 :: ·)
        else none
      | _ => none
    else none


/-- Inductive characterization of `utf8Decode bs = some cs`: the byte list
splits into well-formed UTF-8 characters decoding to `cs`. -/
inductive U8 : List Nat → List Nat → Prop
  | nil : U8 [] []
  | one {b bs cs} : b ≤ 0x7F → U8 bs cs → U8 (b :: bs) (b :: cs)
  | two {b1 b2 bs cs} : 0xC2 ≤ b1 → b1 ≤ 0xDF → isCont b2 = true → U8 bs cs →
      U8 (b1 :: b2 :: bs) (cp2 b1 b2 :: cs)
  | three {b1 b2 b3 bs cs} : 0xE0 ≤ b1 → b1 ≤ 0xEF → snd3Ok b1 b2 = true →
      isCont b3 = true → U8 bs cs →
      U8 (b1 :: b2 :: b3 :: bs) (cp3 b1 b2 b3 :: cs)
  | four {b1 b2 b3 b4 bs cs} : 0xF0 ≤ b1 → b1 ≤ 0xF4 → snd4Ok b1 b2 = true →
      isCont b3 = true → isCont b4 = true → U8 bs cs →
      U8 (b1 :: b2 :: b3 :: b4 :: bs) (cp4 b1 b2 b3 b4 :: cs)


/-! ## Incremental UTF-8 reassembly of `compute_stream` (chat.rs 2319-2367)

On every successful `compute_single` pull, the driver reads the raw token
bytes and attempts `String::from_utf8(output_buffer)`:
  - on success the token is emitted as `delta.content` (the residual buffer
    `CACHED_UTF8_ENCODINGS` is not consulted);
  - on failure the bytes are appended to the residual and the residual is
    re-decoded: on success the decoded string is emitted and the residual
    cleared; on failure an operation error is raised when the residual now
    exceeds 4 bytes, otherwise `String::new()` (empty content) is emitted
    and the residual kept.
`streamStep` returns the emitted code points (`none` = operation error) and
the residual after the pull. -/
def streamStep (residual buf : List Nat) : Option (List Nat) × List Nat :=
  match utf8Decode buf with
  | some cs => (some cs, residual)
  | none =>
    let r := residual ++ buf
    match utf8Decode r with
    | some cs => (some cs, [])
    | none => if 4 < r.length then (none, r) else (some [], r)

/-- Fold `streamStep` over the successive token buffers: `none` when the
driver raises the operation error, otherwise the list of emitted contents
and the final residual. -/
def streamRun (residual : List Nat) : List (List Nat) → Option (List (List Nat) × List Nat)
  | [] => some ([], residual)
  | buf :: bufs =>
    match streamStep residual buf with
    | (none, _) => none
    | (some c, r') =>
      match streamRun r' bufs with
      | none => none
      | some (cs, rf) => some (c :: cs, rf)


/-! ## Prompt-builder pruning loop (`build_prompt`, chat.rs 1508-1677)

`build_prompt` renders the prompt, pushes it to the backend, reads the
prompt-token count, and while it exceeds `ctx_size * 4 / 5` prunes messages
per the role of `messages[0]`.  The pruning inspects only the message roles,
so messages are modelled by their role; rendering and token counting are
backend effects, modelled as an oracle `promptTokens` over the message list. -/

/-- Role of a chat message (`ChatCompletionRole`). -/
inductive Role
  | system
  | user
  | assistant
  | tool
deriving DecidableEq, Repr

/-- Outcome of one iteration of the pruning loop body on
`prompt_tokens > max_prompt_tokens`: return the current prompt, continue
with a (possibly unchanged) message list, or panic (index out of bounds /
unsupported leading role). -/
inductive PruneRes
  | ret
  | pruned (msgs : List Role)
  | panic
deriving DecidableEq, Repr

/-- Role at index `i`, `none` when out of bounds (a Rust index panic). -/
def roleAt (msgs : List Role) (i : Nat) : Option Role :=
  msgs.get? i

/-- One iteration of the `build_prompt` pruning branch (chat.rs 1603-1673),
executed when the rendered prompt still exceeds the limit. -/
def pruneStep (msgs : List Role) : PruneRes :=
  match roleAt msgs 0 with
  | none => .panic
  | some .system =>
    if 4 ≤ msgs.length then
      let m1 := if roleAt msgs 1 = some .user then msgs.eraseIdx 1 else msgs
      let m2 := if roleAt m1 1 = some .assistant then m1.eraseIdx 1 else m1
      .pruned m2
    else if msgs.length = 3 ∧ roleAt msgs 1 = some .user then
      .pruned (msgs.eraseIdx 1)
    else .ret
  | some .user =>
    if 3 ≤ msgs.length then
      let m1 := if roleAt msgs 0 = some .user then msgs.eraseIdx 0 else msgs
      let m2 := if roleAt m1 0 = some .assistant then m1.eraseIdx 0 else m1
      match roleAt m2 0 with
      | none => .panic
      | some .tool =>
        let m3 := m2.eraseIdx 0
        match roleAt m3 0 with
        | none => .panic
        | some r3 => .pruned (if r3 = .assistant then m3.eraseIdx 0 else m3)
      | some _ => .pruned m2
    else if msgs.length = 2 ∧ roleAt msgs 0 = some .user then
      .pruned (msgs.eraseIdx 0)
    else .ret
  | some _ => .panic

/-- Result of the whole `build_prompt` loop on the message-role projection. -/
inductive LoopRes
  | ok (msgs : List Role)
  | panicked
  | fuelOut
deriving DecidableEq, Repr

/-- The `build_prompt` loop: render (oracle `promptTokens`), test against
`maxPromptTokens = ctx_size * 4 / 5`, and either return or prune and retry.
`fuel` bounds the number of iterations so the definition is total; the Rust
loop has no such bound. -/
def buildPromptLoop (promptTokens : List Role → Nat) (maxPromptTokens : Nat) :
    Nat → List Role → LoopRes
  | 0, _ => .fuelOut
  | fuel + 1, msgs =>
    if promptTokens msgs ≤ maxPromptTokens then .ok msgs
    else match pruneStep msgs with
      | .ret => .ok msgs
      | .panic => .panicked
      | .pruned msgs' => buildPromptLoop promptTokens maxPromptTokens fuel msgs'

/-- Well-formed user-led conversation: alternating user/assistant exchanges,
optionally with a `tool → assistant` continuation after an assistant turn,
ending in the final user message. -/
inductive UConv : List Role → Prop
  | single : UConv [.user]
  | pair {t} : UConv t → UConv (.user :: .assistant :: t)
  | toolPair {t} : UConv t → UConv (.user :: .assistant :: .tool :: .assistant :: t)

/-- Well-formed system-led tail: plain user/assistant exchanges ending in
the final user message (no tool continuations). -/
inductive SConv : List Role → Prop
  | single : SConv [.user]
  | pair {t} : SConv t → SConv (.user :: .assistant :: t)

/-- Well-formed conversation for the pruning loop. -/
def GoodMsgs (msgs : List Role) : Prop :=
  UConv msgs ∨ ∃ t, msgs = .system :: t ∧ SConv t

/-- The two minimal shapes named by the specification: a system turn followed
only by the final user message, or a lone final user message. -/
def minimalShape (msgs : List Role) : Prop :=
  msgs = [.system, .user] ∨ msgs = [.user]


/-! ## Post-processor (`post_process`, chat.rs 1375-1506)

A pure function from the raw generation and the prompt template to the
cleaned message.  The Rust function returns `Result<String, String>` but
every branch yields `Ok`; the only failure mode is the
`strip_suffix("</s>").unwrap()` panic in the Zephyr/Mistral branch, modelled
as `none`. -/

/-- Prompt template kinds referenced by `chat.rs` (from the `chat-prompts`
crate; only the variants used in this repository are listed, with `qwen2vl`
and `codeLlama` exercising the default branch). -/
inductive PromptTemplateType
  | llama2Chat
  | llama3Chat
  | chatML
  | chatMLTool
  | mistralInstruct
  | mistralLite
  | mistralTool
  | zephyr
  | gemmaInstruct
  | phi3Chat
  | baichuan2
  | deepseekChat
  | solarInstruct
  | openChat
  | humanAssistant
  | qwen2vl
  | codeLlama
deriving DecidableEq, Repr

/-- `post_process(output, template_ty)`; `none` models a Rust panic. -/
def post_process (template_ty : PromptTemplateType) (output : List Char) :
    Option (List Char) :=
  if template_ty = .baichuan2 then
    some (if containsP "用户:".toList output then
      trim (trimEndMatches "用户:".toList output)
    else trim output)
  else if template_ty = .openChat then
    some (if containsP "<|end_of_turn|>".toList output then
      trim (trimEndMatches "<|end_of_turn|>".toList output)
    else trim output)
  else if template_ty = .gemmaInstruct then
    let s := trim output
    some (if endsWithP "<end_of_turn>".toList s then
      trim (trimEndMatches "<end_of_turn>".toList s)
    else s)
  else if template_ty = .chatML ∨ template_ty = .chatMLTool then
    -- `contains` is `find(..).is_some()`; `split(pat)[0]` is the prefix
    -- before the first occurrence.  The `unwrap`s on `find` are guarded by
    -- the `contains` tests and cannot panic.
    some (match firstIdx "<|im_start|>".toList output, firstIdx "<|im_end|>".toList output with
    | some idxStart, some idxEnd =>
      if idxStart ≤ idxEnd then trim (takeBeforeP "<|im_start|>".toList output)
      else trim (takeBeforeP "<|im_end|>".toList output)
    | some _, none => trim (takeBeforeP "<|im_start|>".toList output)
    | none, some _ => trim (takeBeforeP "<|im_end|>".toList output)
    | none, none => trim output)
  else if template_ty = .zephyr ∨ template_ty = .mistralLite ∨
      template_ty = .mistralTool ∨ template_ty = .mistralInstruct then
    if containsP "</s><".toList output then
      some (trim (trimEndMatches "</s><".toList output))
    else if containsP "</s>".toList output then
      -- `output.strip_suffix("</s>").unwrap()`: panics when "</s>" occurs
      -- but not as a suffix.
      (stripSuffixP "</s>".toList output).map trim
    else some (trim output)
  else if template_ty = .deepseekChat then
    some (if containsP "<|end_of_sentence|>".toList output then
      trim (replaceAll "<|end_of_sentence|>".toList " ".toList
        (trim (trimEndMatches "<|end_of_sentence|>".toList output)))
    else trim output)
  else if template_ty = .humanAssistant then
    some (if containsP "Human:".toList output then
      trim (trimEndMatches "Human:".toList output)
    else trim output)
  else if template_ty = .solarInstruct then
    let s := trim output
    some (if leadsWith "### Answer".toList s then
      let s2 := trim (trimStartMatches "###".toList s)
      if leadsWith "Answer:\n".toList s2 then
        replaceAll "Answer:\n".toList "Answer: ".toList s2
      else s2
    else s)
  else if template_ty = .llama2Chat then
    let s := trim output
    some (if endsWithP "</s>".toList s then trim (trimEndMatches "</s>".toList s) else s)
  else if template_ty = .llama3Chat then
    let s := trim output
    some (if endsWithP "<|eot_id|>".toList s then
      trim (trimEndMatches "<|eot_id|>".toList s)
    else s)
  else if template_ty = .phi3Chat then
    let s := trim output
    some (if endsWithP "<|end|>".toList s then trim (trimEndMatches "<|end|>".toList s) else s)
  else some (trim output)

/-! ## Token accounting (`Usage`, chat.rs 929-1127 and the streaming sites) -/

/-- `TokenInfo` decoded from output slot 1 (`{input_tokens, output_tokens}`). -/
structure TokenInfo where
  prompt_tokens : Nat
  completion_tokens : Nat
deriving DecidableEq, Repr

/-- OpenAI `usage` object. -/
structure Usage where
  prompt_tokens : Nat
  completion_tokens : Nat
  total_tokens : Nat
deriving DecidableEq, Repr

/-- The three outcomes of the blocking `compute()` call that still produce a
response in `compute_by_graph`. -/
inductive ComputeOutcome
  | success
  | contextFull
  | promptTooLong
deriving DecidableEq, Repr

/-- The `usage` record built by `compute_by_graph` in each outcome branch.
The `Ok` and `ContextFull` branches compute `prompt + completion`
(chat.rs 929-934, 955-960, 983-988, 1051-1056); the `PromptTooLong` branch
computes `completion + completion` (chat.rs 1122-1127). -/
def oneShotUsage : ComputeOutcome → TokenInfo → Usage
  | .success, t =>
    ⟨t.prompt_tokens, t.completion_tokens, t.prompt_tokens + t.completion_tokens⟩
  | .contextFull, t =>
    ⟨t.prompt_tokens, t.completion_tokens, t.prompt_tokens + t.completion_tokens⟩
  | .promptTooLong, t =>
    ⟨t.prompt_tokens, t.completion_tokens, t.completion_tokens + t.completion_tokens⟩

/-- The `usage` record built at every streaming site (`compute_stream` usage
chunks and the pre-computed chunks of `chat_stream_by_graph`): always
`prompt + completion`. -/
def streamUsage (t : TokenInfo) : Usage :=
  ⟨t.prompt_tokens, t.completion_tokens, t.prompt_tokens + t.completion_tokens⟩

/-! ## Tool-call parser (`parse_tool_calls`, chat.rs 1140-1230) and the
one-shot driver's dispatch on its result (chat.rs 910-963)

The regex engine and JSON parser are external crates; the records already
captured and JSON-parsed are passed as the `values` list (one per
successfully parsed `{name, arguments}` object; when no record matches or
every capture fails to parse, `values` is empty).  For the two tool
templates the Rust code then returns `Some(tool_calls)` built from
`values` — also when `values` is empty; `None` is returned only for the
remaining templates (the static regexes always compile). -/

/-- A parsed `{name, arguments}` record. -/
structure FnRec where
  name : List Char
  arguments : List Char
deriving DecidableEq, Repr

/-- Wire `ToolCall` object. -/
structure ToolCall where
  id : List Char
  ty : List Char
  function : FnRec
deriving DecidableEq, Repr

/-- OpenAI `finish_reason` values. -/
inductive FinishReason
  | stop
  | length
  | tool_calls
deriving DecidableEq, Repr

def parse_tool_calls (prompt_template : PromptTemplateType) (values : List FnRec) :
    Option (List ToolCall) :=
  match prompt_template with
  | .mistralTool =>
    some (values.map fun v => ⟨"call_abc123".toList, "function".toList, v⟩)
  | .chatMLTool =>
    some (values.map fun v => ⟨"call_abc123".toList, "function".toList, v⟩)
  | _ => none

/-- `compute_by_graph`'s dispatch on the parser result in the `tool_use`
branch (chat.rs 910-963): `Some` yields `finish_reason: tool_calls` with the
parsed list, `None` yields `finish_reason: stop` with no tool calls. -/
def oneShotToolDispatch (parsed : Option (List ToolCall)) : FinishReason × List ToolCall :=
  match parsed with
  | some tool_calls => (.tool_calls, tool_calls)
  | none => (.stop, [])

/-! ## Tool-use flag of the prompt builder (`build_prompt`, chat.rs 1537-1595) -/

/-- `ToolChoice` (modelled from the spec: the `endpoints` crate is not part
of this repository; §3 gives `tool_choice: {None, Auto, Named(name)}`). -/
inductive ToolChoice
  | none
  | auto
  | named (name : List Char)
deriving DecidableEq, Repr

/-- Tool schema carrier (modelled from the spec: only presence matters to
`build_prompt`'s flag). -/
structure Tool where
  name : List Char
deriving DecidableEq, Repr

/-- The `tool_use` flag computed by `build_prompt`: `ToolChoice::None` and a
missing `tool_choice` give `false`; any other choice gives `true` exactly
when the `tools` field is present (`Some`), regardless of whether the
present sequence is empty (chat.rs 1537-1595). -/
def buildPromptToolUse (tool_choice : Option ToolChoice) (tools : Option (List Tool)) :
    Bool :=
  match tool_choice with
  | some tc =>
    match tc with
    | .none => false
    | _ =>
      match tools with
      | some _ => true
      | Option.none => false
  | Option.none => false

/-! ## `update_n_predict` (chat.rs 1332-1373) -/

/-- `update_n_predict`: new `n_predict` value and whether the metadata is
pushed back into input slot 1.  When `max_tokens` is present the update flag
is set unconditionally; otherwise only when `n_predict` exceeds the
available completion tokens. -/
def update_n_predict (max_tokens : Option Nat)
    (n_predict available_completion_tokens : Nat) : Nat × Bool :=
  match max_tokens with
  | some mt =>
    let max_completion_tokens :=
      if available_completion_tokens < mt then available_completion_tokens else mt
    (max_completion_tokens, true)
  | none =>
    if n_predict > available_completion_tokens then (available_completion_tokens, true)
    else (n_predict, false)

/-! ## Streaming state machine (`ChatStream` / `compute_stream`,
chat.rs 2036-2800)

`compute_stream` is modelled as a step function from the backend response of
the current pull and the stream state to the emitted item, the next state
and whether `finish_single` was invoked during the pull.  The process-wide
residual buffer is part of the state (one stream at a time).  Wire strings
are represented structurally: `sse c` is `"data: {json(c)}\n\n"`, `doneLit`
is the literal `"data: [DONE]\n\n"`, `eos` is the terminator string
`"[GGML] End of sequence"` that `poll_next` converts into end-of-stream. -/

inductive ContextFullState
  | message
  | usage
  | done
  | endOfSequence
deriving DecidableEq, Repr

inductive StreamState
  | usage
  | done
  | endOfSequence
deriving DecidableEq, Repr

inductive PromptTooLongState
  | message
  | usage
  | done
  | endOfSequence
deriving DecidableEq, Repr

structure StreamSt where
  context_full_state : ContextFullState
  prompt_too_long_state : PromptTooLongState
  stream_state : StreamState
  residual : List Nat
deriving DecidableEq, Repr

/-- Initial state built by `ChatStream::new` (chat.rs 2068-2090):
`stream_state` starts at `Usage` iff `include_usage`. -/
def chatStreamInit (include_usage : Bool) : StreamSt :=
  ⟨.message, .message, if include_usage then .usage else .done, []⟩

/-- Backend response of one `compute_single` pull. -/
inductive BackendResp
  | ok (bytes : List Nat)
  | endOfSequence
  | contextFull
  | promptTooLong
  | other
deriving DecidableEq, Repr

/-- One `choices[0]` entry of a streaming chunk (role is always `assistant`,
`logprobs` always `null`, `tool_calls` always empty on these paths). -/
structure ChunkChoice where
  content : Option (List Nat)
  finish_reason : Option FinishReason
deriving DecidableEq, Repr

/-- A `ChatCompletionChunk` reduced to the fields the claims speak about. -/
structure ChunkD where
  choices : List ChunkChoice
  usage : Option Usage
deriving DecidableEq, Repr

/-- Item produced by one pull. -/
inductive StepOut
  | sse (chunk : ChunkD)
  | doneLit
  | eos
  | opError
  | backendError
deriving DecidableEq, Repr

/-- `"<|WASMEDGE-GGML-CONTEXT-FULL|>"` as code points. -/
def sentinelCF : List Nat := "<|WASMEDGE-GGML-CONTEXT-FULL|>".toList.map Char.toNat

/-- One pull of `compute_stream` (chat.rs 2274-2800).  The guard at the top
returns the terminator as soon as any sub-state is `EndOfSequence`, before
`compute_single` is called — so the `EndOfSequence` arms of the three state
machines (which do invoke `finish_single`) are unreachable from the initial
state. -/
def computeStreamStep (include_usage : Bool) (token_info : TokenInfo)
    (resp : BackendResp) (st : StreamSt) : StepOut × StreamSt × Bool :=
  if st.prompt_too_long_state = .endOfSequence ∨ st.context_full_state = .endOfSequence ∨
      st.stream_state = .endOfSequence then
    (.eos, st, false)
  else
    match resp with
    | .ok bytes =>
      match streamStep st.residual bytes with
      | (some c, r') =>
        (.sse ⟨[⟨some c, none⟩], none⟩, { st with residual := r' }, false)
      | (none, r') => (.opError, { st with residual := r' }, false)
    | .endOfSequence =>
      match st.stream_state with
      | .usage =>
        (.sse ⟨[], some (streamUsage token_info)⟩,
          { st with stream_state := .done }, false)
      | .done => (.doneLit, { st with stream_state := .endOfSequence }, false)
      | .endOfSequence => (.eos, st, true)
    | .contextFull =>
      match st.context_full_state with
      | .message =>
        (.sse ⟨[⟨some sentinelCF, some .length⟩], none⟩,
          { st with context_full_state := if include_usage then .usage else .done },
          false)
      | .usage =>
        (.sse ⟨[], some (streamUsage token_info)⟩,
          { st with context_full_state := .done }, false)
      | .done => (.doneLit, { st with context_full_state := .endOfSequence }, false)
      | .endOfSequence => (.eos, st, true)
    | .promptTooLong =>
      match st.prompt_too_long_state with
      | .message =>
        (.sse ⟨[⟨none, some .length⟩], none⟩,
          { st with prompt_too_long_state := if include_usage then .usage else .done },
          false)
      | .usage =>
        (.sse ⟨[], some (streamUsage token_info)⟩,
          { st with prompt_too_long_state := .done }, false)
      | .done => (.doneLit, { st with prompt_too_long_state := .endOfSequence }, false)
      | .endOfSequence => (.eos, st, true)
    | .other => (.backendError, st, true)

/-- Trace of successive pulls: the emitted item and the `finish_single`
flag of each pull. -/
def runSteps (include_usage : Bool) (token_info : TokenInfo) :
    List BackendResp → StreamSt → List (StepOut × Bool)
  | [], _ => []
  | resp :: resps, st =>
    let s := computeStreamStep include_usage token_info resp st
    (s.1, s.2.2) :: runSteps include_usage token_info resps s.2.1

/-! ## Qwen2-vl user-turn renderer (`Qwen2vlPrompt::append_user_message`,
qwen.rs 28-112)

`get_image_format` sniffs the magic bytes of a base64 payload; it lives in
the `chat-prompts` utils outside this file's sources and is abstracted as a
parameter (it is never invoked for URL images). -/

/-- A `ContentPart` of a user message: text, an image given by URL, or an
image given as base64 data. -/
inductive QContentPart
  | text (s : List Char)
  | imageUrl (url : List Char)
  | imageBase64 (data : List Char)
deriving DecidableEq, Repr

/-- The text accumulator of the parts loop: each text part is appended
followed by `'\n'` (qwen.rs 64-67). -/
def qwenTextCollect : List QContentPart → List Char
  | [] => []
  | .text t :: ps => t ++ '\n' :: qwenTextCollect ps
  | _ :: ps => qwenTextCollect ps

/-- The `image_contents` accumulator (qwen.rs 68-81): URLs become the
`"<image>"` sentinel, base64 payloads become an inline `<img>` tag whose
format comes from `get_image_format` (failure propagates). -/
def qwenImageContents (getImageFormat : List Char → Option (List Char)) :
    List QContentPart → Option (List (List Char))
  | [] => some []
  | .text _ :: ps => qwenImageContents getImageFormat ps
  | .imageUrl _ :: ps =>
    (qwenImageContents getImageFormat ps).map ("<image>".toList :: ·)
  | .imageBase64 data :: ps =>
    match getImageFormat data with
    | none => none
    | some fmt =>
      (qwenImageContents getImageFormat ps).map
        (("<img src=\"data:image/".toList ++ fmt ++ ";base64,".toList ++ data ++
          "\">".toList) :: ·)

/-- The `image_embeddings` string (qwen.rs 85-92): each image content is
trimmed and wrapped in `<|vision_start|>…<|vision_end|>`, concatenated. -/
def qwenImageEmbeddings (ics : List (List Char)) : List Char :=
  (ics.map fun ic =>
    "<|vision_start|>".toList ++ trim ic ++ "<|vision_end|>".toList).flatten

/-- `append_user_message` on a `Parts` content (qwen.rs 59-108): the user
turn is `<|im_start|>user\n` followed by the trimmed image embeddings, then
the trimmed concatenated text, closed by `<|im_end|>`, prefixed by the
trimmed system prompt (empty history) or chat history. -/
def qwenAppendUserParts (getImageFormat : List Char → Option (List Char))
    (chat_history system_prompt : List Char) (parts : List QContentPart) :
    Option (List Char) :=
  match qwenImageContents getImageFormat parts with
  | none => none
  | some ics =>
    let content := qwenTextCollect parts
    let image_embeddings := qwenImageEmbeddings ics
    some ((if chat_history = [] then trim system_prompt else trim chat_history) ++
      '\n' :: "<|im_start|>user\n".toList ++ trim image_embeddings ++ trim content ++
      "<|im_end|>".toList)

/-- `true` when no part is a base64 image. -/
def qwenNoBase64 : List QContentPart → Bool
  | [] => true
  | .imageBase64 _ :: _ => false
  | _ :: ps => qwenNoBase64 ps

/-- Number of image parts. -/
def qwenImageCount : List QContentPart → Nat
  | [] => 0
  | .text _ :: ps => qwenImageCount ps
  | .imageUrl _ :: ps => qwenImageCount ps + 1
  | .imageBase64 _ :: ps => qwenImageCount ps + 1

/-- The wrapped sentinel the claim describes for a URL image. -/
def qwenSentinel : List Char := "<|vision_start|><image><|vision_end|>".toList

/-- Unfolding lemma: singleton byte list. -/
theorem utf8Decode_one (b1 : Nat) :
    utf8Decode [b1] =
      if b1 ≤ 0x7F then some [b1]
      else if 0xC2 ≤ b1 ∧ b1 ≤ 0xDF then none
      else if 0xE0 ≤ b1 ∧ b1 ≤ 0xEF then none
      else if 0xF0 ≤ b1 ∧ b1 ≤ 0xF4 then none
      else none := rfl

/-- Unfolding lemma: list of length exactly 2. -/
theorem utf8Decode_two (b1 b2 : Nat) :
    utf8Decode [b1, b2] =
      if b1 ≤ 0x7F then (utf8Decode [b2]).map (b1 :: ·)
      else if 0xC2 ≤ b1 ∧ b1 ≤ 0xDF then
        (if isCont b2 then some [cp2 b1 b2] else none)
      else if 0xE0 ≤ b1 ∧ b1 ≤ 0xEF then none
      else if 0xF0 ≤ b1 ∧ b1 ≤ 0xF4 then none
      else none := rfl

/-- Unfolding lemma: list of length exactly 3. -/
theorem utf8Decode_three (b1 b2 b3 : Nat) :
    utf8Decode [b1, b2, b3] =
      if b1 ≤ 0x7F then (utf8Decode [b2, b3]).map (b1 :: ·)
      else if 0xC2 ≤ b1 ∧ b1 ≤ 0xDF then
        (if isCont b2 then (utf8Decode [b3]).map (cp2 b1 b2 :: ·) else none)
      else if 0xE0 ≤ b1 ∧ b1 ≤ 0xEF then
        (if snd3Ok b1 b2 ∧ isCont b3 then some [cp3 b1 b2 b3] else none)
      else if 0xF0 ≤ b1 ∧ b1 ≤ 0xF4 then none
      else none := rfl

/-- Unfolding lemma: list of length at least 4. -/
theorem utf8Decode_four (b1 b2 b3 b4 : Nat) (r : List Nat) :
    utf8Decode (b1 :: b2 :: b3 :: b4 :: r) =
      if b1 ≤ 0x7F then (utf8Decode (b2 :: b3 :: b4 :: r)).map (b1 :: ·)
      else if 0xC2 ≤ b1 ∧ b1 ≤ 0xDF then
        (if isCont b2 then (utf8Decode (b3 :: b4 :: r)).map (cp2 b1 b2 :: ·) else none)
      else if 0xE0 ≤ b1 ∧ b1 ≤ 0xEF then
        (if snd3Ok b1 b2 ∧ isCont b3 then (utf8Decode (b4 :: r)).map (cp3 b1 b2 b3 :: ·)
         else none)
      else if 0xF0 ≤ b1 ∧ b1 ≤ 0xF4 then
        (if snd4Ok b1 b2 ∧ isCont b3 ∧ isCont b4 then
           (utf8Decode r).map (cp4 b1 b2 b3 b4 :: ·)
         else none)
      else none := rfl

/-- Unfolding lemma for an ASCII head in front of any tail. -/
theorem utf8Decode_ascii {b1 : Nat} (h : b1 ≤ 0x7F) (rest : List Nat) :
    utf8Decode (b1 :: rest) = (utf8Decode rest).map (b1 :: ·) := by
  match rest with
  | [] => rw [utf8Decode_one, if_pos h]; rfl
  | [b2] => rw [utf8Decode_two, if_pos h]
  | [b2, b3] => rw [utf8Decode_three, if_pos h]
  | b2 :: b3 :: b4 :: r => rw [utf8Decode_four, if_pos h]

/-- Unfolding lemma for a 2-byte-class head in front of any tail. -/
theorem utf8Decode_cls2 {b1 b2 : Nat} (h1 : 0xC2 ≤ b1) (h2 : b1 ≤ 0xDF)
    (hc : isCont b2 = true) (r : List Nat) :
    utf8Decode (b1 :: b2 :: r) = (utf8Decode r).map (cp2 b1 b2 :: ·) := by
  match r with
  | [] =>
    rw [utf8Decode_two, if_neg (by omega), if_pos ⟨h1, h2⟩, if_pos hc]
    rfl
  | [b3] => rw [utf8Decode_three, if_neg (by omega), if_pos ⟨h1, h2⟩, if_pos hc]
  | b3 :: b4 :: r' => rw [utf8Decode_four, if_neg (by omega), if_pos ⟨h1, h2⟩, if_pos hc]

/-- Unfolding lemma for a 3-byte-class head in front of any tail. -/
theorem utf8Decode_cls3 {b1 b2 b3 : Nat} (h1 : 0xE0 ≤ b1) (h2 : b1 ≤ 0xEF)
    (hs : snd3Ok b1 b2 = true) (hc : isCont b3 = true) (r : List Nat) :
    utf8Decode (b1 :: b2 :: b3 :: r) = (utf8Decode r).map (cp3 b1 b2 b3 :: ·) := by
  match r with
  | [] =>
    rw [utf8Decode_three, if_neg (by omega), if_neg (by omega), if_pos ⟨h1, h2⟩,
      if_pos ⟨hs, hc⟩]
    rfl
  | b4 :: r' =>
    rw [utf8Decode_four, if_neg (by omega), if_neg (by omega), if_pos ⟨h1, h2⟩,
      if_pos ⟨hs, hc⟩]

/-- Unfolding lemma for a 4-byte-class head in front of any tail. -/
theorem utf8Decode_cls4 {b1 b2 b3 b4 : Nat} (h1 : 0xF0 ≤ b1) (h2 : b1 ≤ 0xF4)
    (hs : snd4Ok b1 b2 = true) (hc3 : isCont b3 = true) (hc4 : isCont b4 = true)
    (r : List Nat) :
    utf8Decode (b1 :: b2 :: b3 :: b4 :: r) = (utf8Decode r).map (cp4 b1 b2 b3 b4 :: ·) := by
  rw [utf8Decode_four, if_neg (by omega), if_neg (by omega), if_neg (by omega),
    if_pos ⟨h1, h2⟩, if_pos ⟨hs, hc3, hc4⟩]

theorem U8.decode : ∀ {bs cs}, U8 bs cs → utf8Decode bs = some cs := by
  intro bs cs h
  induction h with
  | nil => rfl
  | one h1 _ ih => rw [utf8Decode_ascii h1, ih]; rfl
  | two h1 h2 hc _ ih => rw [utf8Decode_cls2 h1 h2 hc, ih]; rfl
  | three h1 h2 hs hc _ ih => rw [utf8Decode_cls3 h1 h2 hs hc, ih]; rfl
  | four h1 h2 hs hc3 hc4 _ ih => rw [utf8Decode_cls4 h1 h2 hs hc3 hc4, ih]; rfl

theorem utf8Decode_sound : ∀ (n : Nat) (bs : List Nat), bs.length ≤ n →
    ∀ cs, utf8Decode bs = some cs → U8 bs cs := by
  intro n
  induction n with
  | zero =>
    intro bs hb cs h
    have hbs : bs = [] := List.eq_nil_of_length_eq_zero (Nat.le_zero.mp hb)
    subst hbs
    cases h
    exact U8.nil
  | succ n ih =>
    intro bs hb cs h
    match bs, hb with
    | [], _ =>
      cases h
      exact U8.nil
    | b1 :: rest, hb =>
      by_cases h1 : b1 ≤ 0x7F
      · rw [utf8Decode_ascii h1] at h
        rcases Option.map_eq_some'.mp h with ⟨cs', hd, hcs⟩
        exact hcs ▸ U8.one h1 (ih rest (by simpa using hb) cs' hd)
      · match rest, hb with
        | [], hb =>
          rw [utf8Decode_one, if_neg h1] at h
          exact absurd h (by split <;> (try split) <;> (try split) <;> simp)
        | b2 :: rest2, hb =>
          by_cases h2 : 0xC2 ≤ b1 ∧ b1 ≤ 0xDF
          · by_cases hc : isCont b2 = true
            · rw [utf8Decode_cls2 h2.1 h2.2 hc] at h
              rcases Option.map_eq_some'.mp h with ⟨cs', hd, hcs⟩
              refine hcs ▸ U8.two h2.1 h2.2 hc (ih rest2 ?_ cs' hd)
              simp only [List.length_cons] at hb
              omega
            · exfalso
              match rest2 with
              | [] =>
                rw [utf8Decode_two, if_neg h1, if_pos h2, if_neg hc] at h
                cases h
              | [b3] =>
                rw [utf8Decode_three, if_neg h1, if_pos h2, if_neg hc] at h
                cases h
              | b3 :: b4 :: r' =>
                rw [utf8Decode_four, if_neg h1, if_pos h2, if_neg hc] at h
                cases h
          · by_cases h3 : 0xE0 ≤ b1 ∧ b1 ≤ 0xEF
            · match rest2, hb with
              | [], _ =>
                rw [utf8Decode_two, if_neg h1, if_neg h2, if_pos h3] at h
                cases h
              | b3 :: rest3, hb =>
                by_cases hc : snd3Ok b1 b2 = true ∧ isCont b3 = true
                · rw [utf8Decode_cls3 h3.1 h3.2 hc.1 hc.2] at h
                  rcases Option.map_eq_some'.mp h with ⟨cs', hd, hcs⟩
                  refine hcs ▸ U8.three h3.1 h3.2 hc.1 hc.2 (ih rest3 ?_ cs' hd)
                  simp only [List.length_cons] at hb
                  omega
                · exfalso
                  match rest3 with
                  | [] =>
                    rw [utf8Decode_three, if_neg h1, if_neg h2, if_pos h3, if_neg hc] at h
                    cases h
                  | b4 :: r' =>
                    rw [utf8Decode_four, if_neg h1, if_neg h2, if_pos h3, if_neg hc] at h
                    cases h
            · by_cases h4 : 0xF0 ≤ b1 ∧ b1 ≤ 0xF4
              · match rest2, hb with
                | [], _ =>
                  rw [utf8Decode_two, if_neg h1, if_neg h2, if_neg h3, if_pos h4] at h
                  cases h
                | [b3], _ =>
                  rw [utf8Decode_three, if_neg h1, if_neg h2, if_neg h3, if_pos h4] at h
                  cases h
                | b3 :: b4 :: rest4, hb =>
                  by_cases hc : snd4Ok b1 b2 = true ∧ isCont b3 = true ∧ isCont b4 = true
                  · rw [utf8Decode_cls4 h4.1 h4.2 hc.1 hc.2.1 hc.2.2] at h
                    rcases Option.map_eq_some'.mp h with ⟨cs', hd, hcs⟩
                    refine hcs ▸ U8.four h4.1 h4.2 hc.1 hc.2.1 hc.2.2 (ih rest4 ?_ cs' hd)
                    simp only [List.length_cons] at hb
                    omega
                  · exfalso
                    rw [utf8Decode_four, if_neg h1, if_neg h2, if_neg h3, if_pos h4,
                      if_neg hc] at h
                    cases h
              · exfalso
                match rest2 with
                | [] =>
                  rw [utf8Decode_two, if_neg h1, if_neg h2, if_neg h3, if_neg h4] at h
                  cases h
                | [b3] =>
                  rw [utf8Decode_three, if_neg h1, if_neg h2, if_neg h3, if_neg h4] at h
                  cases h
                | b3 :: b4 :: r' =>
                  rw [utf8Decode_four, if_neg h1, if_neg h2, if_neg h3, if_neg h4] at h
                  cases h

theorem utf8Decode_iff {bs cs : List Nat} : utf8Decode bs = some cs ↔ U8 bs cs :=
  ⟨utf8Decode_sound bs.length bs le_rfl cs, U8.decode⟩

/-- Concatenation of two valid UTF-8 byte lists is valid, with concatenated
code points. -/
theorem U8.append {a ca b cb : List Nat} (ha : U8 a ca) (hb : U8 b cb) :
    U8 (a ++ b) (ca ++ cb) := by
  induction ha with
  | nil => exact hb
  | one h1 _ ih => exact U8.one h1 ih
  | two h1 h2 hc _ ih => exact U8.two h1 h2 hc ih
  | three h1 h2 hs hc _ ih => exact U8.three h1 h2 hs hc ih
  | four h1 h2 hs hc3 hc4 _ ih => exact U8.four h1 h2 hs hc3 hc4 ih

/-- Decoding after a valid prefix: `utf8Decode (a ++ b)` is decoding `b`
prefixed by the code points of `a`.  This is the UTF-8 self-synchronization
statement used throughout. -/
theorem utf8Decode_append_of_u8 {a ca : List Nat} (ha : U8 a ca) (b : List Nat) :
    utf8Decode (a ++ b) = (utf8Decode b).map (ca ++ ·) := by
  induction ha with
  | nil => simp
  | one h1 _ ih =>
    rw [List.cons_append, utf8Decode_ascii h1, ih, Option.map_map]
    rfl
  | two h1 h2 hc _ ih =>
    rw [List.cons_append, List.cons_append, utf8Decode_cls2 h1 h2 hc, ih, Option.map_map]
    rfl
  | three h1 h2 hs hc _ ih =>
    rw [List.cons_append, List.cons_append, List.cons_append,
      utf8Decode_cls3 h1 h2 hs hc, ih, Option.map_map]
    rfl
  | four h1 h2 hs hc3 hc4 _ ih =>
    rw [List.cons_append, List.cons_append, List.cons_append, List.cons_append,
      utf8Decode_cls4 h1 h2 hs hc3 hc4, ih, Option.map_map]
    rfl

/-- A byte list starting with a continuation byte is invalid. -/
theorem utf8Decode_cont_head {b : Nat} (hc : isCont b = true) (t : List Nat) :
    utf8Decode (b :: t) = none := by
  simp only [isCont, decide_eq_true_eq] at hc
  match t with
  | [] =>
    rw [utf8Decode_one, if_neg (by omega), if_neg (by omega), if_neg (by omega),
      if_neg (by omega)]
  | [b2] =>
    rw [utf8Decode_two, if_neg (by omega), if_neg (by omega), if_neg (by omega),
      if_neg (by omega)]
  | [b2, b3] =>
    rw [utf8Decode_three, if_neg (by omega), if_neg (by omega), if_neg (by omega),
      if_neg (by omega)]
  | b2 :: b3 :: b4 :: r =>
    rw [utf8Decode_four, if_neg (by omega), if_neg (by omega), if_neg (by omega),
      if_neg (by omega)]

/-- A non-ASCII byte alone is invalid. -/
theorem utf8Decode_one_none {b1 : Nat} (h1 : ¬ b1 ≤ 0x7F) : utf8Decode [b1] = none := by
  rw [utf8Decode_one, if_neg h1, ite_self, ite_self, ite_self]

/-- Class-2 head with a non-continuation second byte is invalid. -/
theorem utf8Decode_cls2_notCont {b1 b2 : Nat} (h1 : 0xC2 ≤ b1) (h2 : b1 ≤ 0xDF)
    (hc : ¬ isCont b2 = true) (r : List Nat) : utf8Decode (b1 :: b2 :: r) = none := by
  match r with
  | [] => rw [utf8Decode_two, if_neg (by omega), if_pos ⟨h1, h2⟩, if_neg hc]
  | [b3] => rw [utf8Decode_three, if_neg (by omega), if_pos ⟨h1, h2⟩, if_neg hc]
  | b3 :: b4 :: r' => rw [utf8Decode_four, if_neg (by omega), if_pos ⟨h1, h2⟩, if_neg hc]

/-- Class-3 head whose follow-up constraints fail is invalid. -/
theorem utf8Decode_cls3_bad {b1 b2 b3 : Nat} (h1 : 0xE0 ≤ b1) (h2 : b1 ≤ 0xEF)
    (hc : ¬ (snd3Ok b1 b2 = true ∧ isCont b3 = true)) (r : List Nat) :
    utf8Decode (b1 :: b2 :: b3 :: r) = none := by
  match r with
  | [] =>
    rw [utf8Decode_three, if_neg (by omega), if_neg (by omega), if_pos ⟨h1, h2⟩, if_neg hc]
  | b4 :: r' =>
    rw [utf8Decode_four, if_neg (by omega), if_neg (by omega), if_pos ⟨h1, h2⟩, if_neg hc]

/-- Class-3 head with only one following byte is invalid. -/
theorem utf8Decode_cls3_short {b1 b2 : Nat} (h1 : 0xE0 ≤ b1) (h2 : b1 ≤ 0xEF) :
    utf8Decode [b1, b2] = none := by
  rw [utf8Decode_two, if_neg (by omega), if_neg (by omega), if_pos ⟨h1, h2⟩]

/-- Class-4 head whose follow-up constraints fail is invalid. -/
theorem utf8Decode_cls4_bad {b1 b2 b3 b4 : Nat} (h1 : 0xF0 ≤ b1) (h2 : b1 ≤ 0xF4)
    (hc : ¬ (snd4Ok b1 b2 = true ∧ isCont b3 = true ∧ isCont b4 = true)) (r : List Nat) :
    utf8Decode (b1 :: b2 :: b3 :: b4 :: r) = none := by
  rw [utf8Decode_four, if_neg (by omega), if_neg (by omega), if_neg (by omega),
    if_pos ⟨h1, h2⟩, if_neg hc]

/-- Class-4 head with only one following byte is invalid. -/
theorem utf8Decode_cls4_short2 {b1 b2 : Nat} (h1 : 0xF0 ≤ b1) (h2 : b1 ≤ 0xF4) :
    utf8Decode [b1, b2] = none := by
  rw [utf8Decode_two, if_neg (by omega), if_neg (by omega), if_neg (by omega),
    if_pos ⟨h1, h2⟩]

/-- Class-4 head with only two following bytes is invalid. -/
theorem utf8Decode_cls4_short3 {b1 b2 b3 : Nat} (h1 : 0xF0 ≤ b1) (h2 : b1 ≤ 0xF4) :
    utf8Decode [b1, b2, b3] = none := by
  rw [utf8Decode_three, if_neg (by omega), if_neg (by omega), if_neg (by omega),
    if_pos ⟨h1, h2⟩]

/-- A byte that heads no UTF-8 class makes the list invalid. -/
theorem utf8Decode_badHead {b1 : Nat} (h1 : ¬ b1 ≤ 0x7F) (h2 : ¬ (0xC2 ≤ b1 ∧ b1 ≤ 0xDF))
    (h3 : ¬ (0xE0 ≤ b1 ∧ b1 ≤ 0xEF)) (h4 : ¬ (0xF0 ≤ b1 ∧ b1 ≤ 0xF4)) (r : List Nat) :
    utf8Decode (b1 :: r) = none := by
  match r with
  | [] => rw [utf8Decode_one, if_neg h1, if_neg h2, if_neg h3, if_neg h4]
  | [b2] => rw [utf8Decode_two, if_neg h1, if_neg h2, if_neg h3, if_neg h4]
  | [b2, b3] => rw [utf8Decode_three, if_neg h1, if_neg h2, if_neg h3, if_neg h4]
  | b2 :: b3 :: b4 :: r' => rw [utf8Decode_four, if_neg h1, if_neg h2, if_neg h3, if_neg h4]

theorem snd3Ok_cont {b1 b2 : Nat} (h : snd3Ok b1 b2 = true) : isCont b2 = true := by
  unfold snd3Ok at h
  unfold isCont at h ⊢
  split at h
  · simp only [decide_eq_true_eq] at h ⊢
    omega
  · split at h
    · simp only [decide_eq_true_eq] at h ⊢
      omega
    · exact h

theorem snd4Ok_cont {b1 b2 : Nat} (h : snd4Ok b1 b2 = true) : isCont b2 = true := by
  unfold snd4Ok at h
  unfold isCont at h ⊢
  split at h
  · simp only [decide_eq_true_eq] at h ⊢
    omega
  · split at h
    · simp only [decide_eq_true_eq] at h ⊢
      omega
    · exact h

/-- Self-synchronization: if an invalid byte list `r` extends to a valid list
`r ++ t`, then `r` stops in the middle of a character, so `t` begins with a
continuation byte. -/
theorem utf8_none_append : ∀ (n : Nat) (r : List Nat), r.length ≤ n →
    ∀ (t cs : List Nat), utf8Decode r = none → utf8Decode (r ++ t) = some cs →
    ∃ b t', t = b :: t' ∧ isCont b = true := by
  intro n
  induction n with
  | zero =>
    intro r hr t cs hnone _
    have : r = [] := List.eq_nil_of_length_eq_zero (Nat.le_zero.mp hr)
    subst this
    cases hnone
  | succ n ih =>
    intro r hr t cs hnone hsome
    match r, hr with
    | [], _ => cases hnone
    | b1 :: r1, hr =>
      rw [List.cons_append] at hsome
      by_cases h1 : b1 ≤ 0x7F
      · rw [utf8Decode_ascii h1] at hnone
        rw [utf8Decode_ascii h1] at hsome
        have hn1 : utf8Decode r1 = none := Option.map_eq_none'.mp hnone
        rcases Option.map_eq_some'.mp hsome with ⟨cs', hd, _⟩
        exact ih r1 (by simpa using hr) t cs' hn1 hd
      · by_cases h2 : 0xC2 ≤ b1 ∧ b1 ≤ 0xDF
        · match r1 with
          | [] =>
            match t with
            | [] =>
              rw [List.nil_append, utf8Decode_one_none h1] at hsome
              cases hsome
            | b2 :: t' =>
              by_cases hc : isCont b2 = true
              · exact ⟨b2, t', rfl, hc⟩
              · rw [List.nil_append, utf8Decode_cls2_notCont h2.1 h2.2 hc] at hsome
                cases hsome
          | b2 :: r2 =>
            rw [List.cons_append] at hsome
            by_cases hc : isCont b2 = true
            · rw [utf8Decode_cls2 h2.1 h2.2 hc] at hnone
              rw [utf8Decode_cls2 h2.1 h2.2 hc] at hsome
              have hn2 : utf8Decode r2 = none := Option.map_eq_none'.mp hnone
              rcases Option.map_eq_some'.mp hsome with ⟨cs', hd, _⟩
              refine ih r2 ?_ t cs' hn2 hd
              simp only [List.length_cons] at hr
              omega
            · rw [utf8Decode_cls2_notCont h2.1 h2.2 hc] at hsome
              cases hsome
        · by_cases h3 : 0xE0 ≤ b1 ∧ b1 ≤ 0xEF
          · match r1 with
            | [] =>
              match t with
              | [] =>
                rw [List.nil_append, utf8Decode_one_none h1] at hsome
                cases hsome
              | b2 :: t' =>
                by_cases hs : snd3Ok b1 b2 = true
                · exact ⟨b2, t', rfl, snd3Ok_cont hs⟩
                · exfalso
                  rw [List.nil_append] at hsome
                  match t' with
                  | [] => rw [utf8Decode_cls3_short h3.1 h3.2] at hsome; cases hsome
                  | b3 :: t'' =>
                    rw [utf8Decode_cls3_bad h3.1 h3.2 (fun hx => hs hx.1)] at hsome
                    cases hsome
            | [b2] =>
              match t with
              | [] =>
                simp only [List.cons_append, List.nil_append, List.append_nil] at hsome
                rw [utf8Decode_cls3_short h3.1 h3.2] at hsome
                cases hsome
              | b3 :: t' =>
                simp only [List.cons_append, List.nil_append] at hsome
                by_cases hcc : snd3Ok b1 b2 = true ∧ isCont b3 = true
                · exact ⟨b3, t', rfl, hcc.2⟩
                · rw [utf8Decode_cls3_bad h3.1 h3.2 hcc] at hsome
                  cases hsome
            | b2 :: b3 :: r3 =>
              rw [List.cons_append, List.cons_append] at hsome
              by_cases hcc : snd3Ok b1 b2 = true ∧ isCont b3 = true
              · rw [utf8Decode_cls3 h3.1 h3.2 hcc.1 hcc.2] at hnone
                rw [utf8Decode_cls3 h3.1 h3.2 hcc.1 hcc.2] at hsome
                have hn3 : utf8Decode r3 = none := Option.map_eq_none'.mp hnone
                rcases Option.map_eq_some'.mp hsome with ⟨cs', hd, _⟩
                refine ih r3 ?_ t cs' hn3 hd
                simp only [List.length_cons] at hr
                omega
              · rw [utf8Decode_cls3_bad h3.1 h3.2 hcc] at hsome
                cases hsome
          · by_cases h4 : 0xF0 ≤ b1 ∧ b1 ≤ 0xF4
            · match r1 with
              | [] =>
                match t with
                | [] =>
                  rw [List.nil_append, utf8Decode_one_none h1] at hsome
                  cases hsome
                | b2 :: t' =>
                  by_cases hs : snd4Ok b1 b2 = true
                  · exact ⟨b2, t', rfl, snd4Ok_cont hs⟩
                  · exfalso
                    rw [List.nil_append] at hsome
                    match t' with
                    | [] => rw [utf8Decode_cls4_short2 h4.1 h4.2] at hsome; cases hsome
                    | [b3] => rw [utf8Decode_cls4_short3 h4.1 h4.2] at hsome; cases hsome
                    | b3 :: b4 :: t'' =>
                      rw [utf8Decode_cls4_bad h4.1 h4.2 (fun hx => hs hx.1)] at hsome
                      cases hsome
              | [b2] =>
                match t with
                | [] =>
                  simp only [List.cons_append, List.nil_append, List.append_nil] at hsome
                  rw [utf8Decode_cls4_short2 h4.1 h4.2] at hsome
                  cases hsome
                | b3 :: t' =>
                  simp only [List.cons_append, List.nil_append] at hsome
                  match t' with
                  | [] =>
                    rw [utf8Decode_cls4_short3 h4.1 h4.2] at hsome
                    cases hsome
                  | b4 :: t'' =>
                    by_cases hcc : snd4Ok b1 b2 = true ∧ isCont b3 = true ∧ isCont b4 = true
                    · exact ⟨b3, b4 :: t'', rfl, hcc.2.1⟩
                    · rw [utf8Decode_cls4_bad h4.1 h4.2 hcc] at hsome
                      cases hsome
              | [b2, b3] =>
                match t with
                | [] =>
                  simp only [List.cons_append, List.nil_append, List.append_nil] at hsome
                  rw [utf8Decode_cls4_short3 h4.1 h4.2] at hsome
                  cases hsome
                | b4 :: t' =>
                  simp only [List.cons_append, List.nil_append] at hsome
                  by_cases hcc : snd4Ok b1 b2 = true ∧ isCont b3 = true ∧ isCont b4 = true
                  · exact ⟨b4, t', rfl, hcc.2.2⟩
                  · rw [utf8Decode_cls4_bad h4.1 h4.2 hcc] at hsome
                    cases hsome
              | b2 :: b3 :: b4 :: r4 =>
                rw [List.cons_append, List.cons_append, List.cons_append] at hsome
                by_cases hcc : snd4Ok b1 b2 = true ∧ isCont b3 = true ∧ isCont b4 = true
                · rw [utf8Decode_cls4 h4.1 h4.2 hcc.1 hcc.2.1 hcc.2.2] at hnone
                  rw [utf8Decode_cls4 h4.1 h4.2 hcc.1 hcc.2.1 hcc.2.2] at hsome
                  have hn4 : utf8Decode r4 = none := Option.map_eq_none'.mp hnone
                  rcases Option.map_eq_some'.mp hsome with ⟨cs', hd, _⟩
                  refine ih r4 ?_ t cs' hn4 hd
                  simp only [List.length_cons] at hr
                  omega
                · rw [utf8Decode_cls4_bad h4.1 h4.2 hcc] at hsome
                  cases hsome
            · rw [utf8Decode_badHead h1 h2 h3 h4] at hsome
              cases hsome

/-- Invariant form of the UTF-8 reassembly correctness: starting from an
empty-or-undecodable residual, if the residual followed by all remaining
buffers is valid UTF-8 and the run raises no operation error, the emitted
contents concatenate to the full decoding and the final residual is empty. -/
theorem streamRun_decode : ∀ (bufs : List (List Nat)) (r cs : List Nat),
    (r = [] ∨ utf8Decode r = none) →
    utf8Decode (r ++ bufs.flatten) = some cs →
    ∀ out rf, streamRun r bufs = some (out, rf) →
    out.flatten = cs ∧ rf = [] := by
  intro bufs
  induction bufs with
  | nil =>
    intro r cs hr hv out rf hrun
    simp only [List.flatten_nil, List.append_nil] at hv
    rcases hr with hr | hr
    · subst hr
      cases hv
      simp only [streamRun, Option.some_inj, Prod.mk.injEq] at hrun
      rw [← hrun.1, ← hrun.2]
      exact ⟨rfl, rfl⟩
    · rw [hr] at hv
      cases hv
  | cons buf bufs ih =>
    intro r cs hr hv out rf hrun
    simp only [List.flatten_cons] at hv
    simp only [streamRun] at hrun
    rcases hd : utf8Decode buf with _ | cb
    · -- the buffer alone does not decode
      simp only [streamStep, hd] at hrun
      rcases hd2 : utf8Decode (r ++ buf) with _ | cb2
      · -- the extended residual does not decode either
        simp only [hd2] at hrun
        by_cases hlen : 4 < (r ++ buf).length
        · rw [if_pos hlen] at hrun
          exact absurd hrun (by simp)
        · rw [if_neg hlen] at hrun
          dsimp only at hrun
          rcases hrun' : streamRun (r ++ buf) bufs with _ | ⟨out', rf'⟩
          · rw [hrun'] at hrun
            cases hrun
          · rw [hrun'] at hrun
            simp only [Option.some_inj, Prod.mk.injEq] at hrun
            have hv' : utf8Decode ((r ++ buf) ++ bufs.flatten) = some cs := by
              rw [List.append_assoc]
              exact hv
            have := ih (r ++ buf) cs (Or.inr hd2) hv' out' rf' hrun'
            rw [← hrun.1, ← hrun.2]
            simp only [List.flatten_cons, List.nil_append]
            exact this
      · -- the extended residual decodes: emit it, clear the residual
        simp only [hd2] at hrun
        rcases hrun' : streamRun [] bufs with _ | ⟨out', rf'⟩
        · rw [hrun'] at hrun
          cases hrun
        · rw [hrun'] at hrun
          simp only [Option.some_inj, Prod.mk.injEq] at hrun
          have hv' : utf8Decode ((r ++ buf) ++ bufs.flatten) = some cs := by
            rw [List.append_assoc]
            exact hv
          rw [utf8Decode_append_of_u8 (utf8Decode_sound _ _ le_rfl _ hd2)] at hv'
          rcases Option.map_eq_some'.mp hv' with ⟨cs', hfl, hcs⟩
          have := ih [] cs' (Or.inl rfl) (by simpa using hfl) out' rf' hrun'
          rw [← hrun.1, ← hrun.2]
          simp only [List.flatten_cons]
          rw [this.1, hcs]
          exact ⟨rfl, this.2⟩
    · -- the buffer alone decodes
      simp only [streamStep, hd] at hrun
      have hrnil : r = [] ∨ buf = [] := by
        rcases hr with hr | hr
        · exact Or.inl hr
        · match buf with
          | [] => exact Or.inr rfl
          | b :: buf' =>
            exfalso
            rcases utf8_none_append r.length r le_rfl (b :: buf' ++ bufs.flatten) cs hr
                (by simpa using hv) with ⟨b', t', ht, hcont⟩
            have hb : b' = b := by
              have := ht.symm
              simp only [List.cons_append, List.cons.injEq] at this
              exact this.1
            rw [utf8Decode_cont_head (hb ▸ hcont)] at hd
            cases hd
      rcases hrun' : streamRun r bufs with _ | ⟨out', rf'⟩
      · rw [hrun'] at hrun
        cases hrun
      · rw [hrun'] at hrun
        simp only [Option.some_inj, Prod.mk.injEq] at hrun
        rcases hrnil with hrnil | hrnil
        · -- empty residual: peel the decoded buffer off the front
          subst hrnil
          simp only [List.nil_append] at hv
          rw [utf8Decode_append_of_u8 (utf8Decode_sound _ _ le_rfl _ hd)] at hv
          rcases Option.map_eq_some'.mp hv with ⟨cs', hfl, hcs⟩
          have := ih [] cs' (Or.inl rfl) (by simpa using hfl) out' rf' hrun'
          rw [← hrun.1, ← hrun.2]
          simp only [List.flatten_cons]
          rw [this.1, hcs]
          exact ⟨rfl, this.2⟩
        · -- empty buffer: nothing is consumed and nothing is emitted
          subst hrnil
          cases hd
          simp only [List.nil_append] at hv
          have := ih r cs hr hv out' rf' hrun'
          rw [← hrun.1, ← hrun.2]
          simp only [List.flatten_cons, List.nil_append]
          exact this

theorem UConv.head : ∀ {t}, UConv t → t.get? 0 = some .user := by
  intro t h
  cases h <;> rfl

theorem UConv_length_pos : ∀ {t}, UConv t → 1 ≤ t.length := by
  intro t h
  cases h <;> simp

theorem SConv_length_pos : ∀ {t}, SConv t → 1 ≤ t.length := by
  intro t h
  cases h <;> simp

/-- Unfolding of one loop iteration. -/
theorem buildPromptLoop_succ (p : List Role → Nat) (m fuel : Nat) (msgs : List Role) :
    buildPromptLoop p m (fuel + 1) msgs =
      if p msgs ≤ m then .ok msgs
      else match pruneStep msgs with
        | .ret => .ok msgs
        | .panic => .panicked
        | .pruned msgs' => buildPromptLoop p m fuel msgs' := rfl

/-- Progress of the pruning step on well-formed conversations: either the
list is one of the two minimal shapes and the step returns the prompt, or at
least one message is removed and the result is again well formed. -/
theorem pruneStep_progress {msgs : List Role} (hg : GoodMsgs msgs) :
    (minimalShape msgs ∧ pruneStep msgs = .ret) ∨
      (∃ m', pruneStep msgs = .pruned m' ∧ m'.length < msgs.length ∧ GoodMsgs m') := by
  rcases hg with hu | ⟨t, rfl, hs⟩
  · cases hu with
    | single => exact Or.inl ⟨Or.inr rfl, by decide⟩
    | @pair t ht =>
      refine Or.inr ⟨t, ?_, by simp only [List.length_cons]; omega, Or.inl ht⟩
      have hh := ht.head
      have hl := UConv_length_pos ht
      simp only [pruneStep, roleAt, List.get?_cons_zero, List.get?_cons_succ,
        List.length_cons]
      rw [if_pos (by omega)]
      simp only [List.eraseIdx_cons_zero, List.get?_cons_zero, if_pos rfl, reduceIte]
      rw [hh]
    | @toolPair t ht =>
      refine Or.inr ⟨t, ?_, by simp only [List.length_cons]; omega, Or.inl ht⟩
      simp only [pruneStep, roleAt, List.get?_cons_zero, List.get?_cons_succ,
        List.length_cons]
      rw [if_pos (by omega)]
      simp only [List.eraseIdx_cons_zero, List.get?_cons_zero, if_pos rfl, reduceIte]
  · cases hs with
    | single => exact Or.inl ⟨Or.inl rfl, by decide⟩
    | @pair t' ht' =>
      refine Or.inr ⟨.system :: t', ?_, by simp only [List.length_cons]; omega,
        Or.inr ⟨t', rfl, ht'⟩⟩
      have hl := SConv_length_pos ht'
      simp only [pruneStep, roleAt, List.get?_cons_zero, List.get?_cons_succ,
        List.length_cons]
      rw [if_pos (by omega)]
      simp only [List.eraseIdx_cons_succ, List.eraseIdx_cons_zero,
        List.get?_cons_succ, List.get?_cons_zero, if_pos rfl, reduceIte]

/-- Termination of the pruning loop on well-formed conversations: with fuel
`msgs.length + 1` the loop always reaches `.ok` (never panics, never runs
out of fuel), for every token oracle and limit. -/
theorem buildPromptLoop_ok : ∀ (n : Nat) (msgs : List Role), GoodMsgs msgs →
    msgs.length ≤ n → ∀ (p : List Role → Nat) (m : Nat),
    ∃ r, buildPromptLoop p m (n + 1) msgs = .ok r := by
  intro n
  induction n with
  | zero =>
    intro msgs hg hl p m
    exfalso
    have : msgs = [] := List.eq_nil_of_length_eq_zero (Nat.le_zero.mp hl)
    subst this
    rcases hg with hu | ⟨t, ht, _⟩
    · cases hu
    · cases ht
  | succ n ih =>
    intro msgs hg hl p m
    rw [buildPromptLoop_succ]
    by_cases htok : p msgs ≤ m
    · rw [if_pos htok]
      exact ⟨msgs, rfl⟩
    · rw [if_neg htok]
      rcases pruneStep_progress hg with ⟨_, hret⟩ | ⟨m', hstep, hlt, hg'⟩
      · rw [hret]
        exact ⟨msgs, rfl⟩
      · rw [hstep]
        exact ih m' hg' (by omega) p m

theorem trimL_cons_not {a : Char} (h : isWS a = false) (l : List Char) :
    trimL (a :: l) = a :: l := by
  simp [trimL, List.dropWhile_cons, h]

theorem trimR_append_not {c : Char} (h : isWS c = false) (y : List Char) :
    trimR (y ++ [c]) = y ++ [c] := by
  unfold trimR
  rw [show (y ++ [c]).reverse = c :: y.reverse by simp, trimL_cons_not h]
  simp

/-- With no base64 parts, the collected image contents are exactly one
`"<image>"` sentinel per image part. -/
theorem qwenImageContents_url {gif : List Char → Option (List Char)} :
    ∀ {parts : List QContentPart}, qwenNoBase64 parts = true →
    qwenImageContents gif parts =
      some (List.replicate (qwenImageCount parts) "<image>".toList) := by
  intro parts h
  induction parts with
  | nil => rfl
  | cons p ps ih =>
    cases p with
    | text s =>
      rw [show qwenNoBase64 (QContentPart.text s :: ps) = qwenNoBase64 ps from rfl] at h
      rw [show qwenImageContents gif (QContentPart.text s :: ps) =
        qwenImageContents gif ps from rfl, ih h]
      rfl
    | imageUrl u =>
      rw [show qwenNoBase64 (QContentPart.imageUrl u :: ps) = qwenNoBase64 ps from rfl] at h
      rw [show qwenImageContents gif (QContentPart.imageUrl u :: ps) =
        (qwenImageContents gif ps).map ("<image>".toList :: ·) from rfl, ih h]
      rfl
    | imageBase64 d => cases h

/-- Embedding a list of `"<image>"` sentinels yields the wrapped sentinels,
concatenated. -/
theorem qwenImageEmbeddings_replicate (n : Nat) :
    qwenImageEmbeddings (List.replicate n "<image>".toList) =
      List.flatten (List.replicate n qwenSentinel) := by
  induction n with
  | zero => rfl
  | succ n ih =>
    rw [List.replicate_succ, List.replicate_succ]
    show ("<|vision_start|>".toList ++ trim "<image>".toList ++ "<|vision_end|>".toList) ++
      qwenImageEmbeddings (List.replicate n "<image>".toList) = _
    rw [ih, List.flatten_cons]
    rfl

theorem qwenSentinel_flatten_last (n : Nat) :
    ∃ y, List.flatten (List.replicate (n + 1) qwenSentinel) = y ++ ['>'] := by
  induction n with
  | zero =>
    refine ⟨"<|vision_start|><image><|vision_end|".toList, ?_⟩
    decide
  | succ n ih =>
    rcases ih with ⟨y, hy⟩
    refine ⟨qwenSentinel ++ y, ?_⟩
    rw [List.replicate_succ, List.flatten_cons, hy, List.append_assoc]

/-- The concatenated wrapped sentinels are already trimmed. -/
theorem trim_qwenSentinel_flatten (n : Nat) :
    trim (List.flatten (List.replicate n qwenSentinel)) =
      List.flatten (List.replicate n qwenSentinel) := by
  cases n with
  | zero => rfl
  | succ n =>
    rcases qwenSentinel_flatten_last n with ⟨y, hy⟩
    unfold trim
    have h1 : List.flatten (List.replicate (n + 1) qwenSentinel) =
        '<' :: ("|vision_start|><image><|vision_end|>".toList ++
          List.flatten (List.replicate n qwenSentinel)) := by
      rw [List.replicate_succ, List.flatten_cons]
      rfl
    rw [h1, trimL_cons_not (by decide), ← h1, hy]
    exact trimR_append_not (by decide) y

/-! ### Trim and substring lemmas used for post-processor idempotence -/

theorem trimL_idem (s : List Char) : trimL (trimL s) = trimL s :=
  List.dropWhile_idempotent isWS s

theorem trimR_idem (s : List Char) : trimR (trimR s) = trimR s := by
  unfold trimR
  rw [List.reverse_reverse, trimL_idem]

theorem trimL_cons_shape {s : List Char} {a : Char} {l : List Char}
    (h : trimL s = a :: l) : isWS a = false := by
  induction s with
  | nil => cases h
  | cons b t ih =>
    by_cases hw : isWS b = true
    · rw [show trimL (b :: t) = trimL t from by simp [trimL, List.dropWhile_cons, hw]] at h
      exact ih h
    · rw [trimL_cons_not (by simpa using hw)] at h
      cases h
      simpa using hw

theorem trimR_cons_head {a : Char} (ha : isWS a = false) (l : List Char) :
    ∃ m, trimR (a :: l) = a :: m := by
  unfold trimR
  rw [show (a :: l).reverse = l.reverse ++ [a] from by simp]
  rw [show trimL (l.reverse ++ [a]) = List.dropWhile isWS (l.reverse ++ [a]) from rfl]
  rw [List.dropWhile_append]
  by_cases he : (l.reverse.dropWhile isWS).isEmpty
  · rw [if_pos he]
    rw [show List.dropWhile isWS [a] = [a] from by simp [List.dropWhile_cons, ha]]
    exact ⟨[], rfl⟩
  · rw [if_neg he]
    exact ⟨(l.reverse.dropWhile isWS).reverse, by simp⟩

theorem trim_trim (s : List Char) : trim (trim s) = trim s := by
  unfold trim
  rcases hu : trimL s with _ | ⟨a, l⟩
  · rfl
  · have ha : isWS a = false := trimL_cons_shape hu
    rcases trimR_cons_head ha l with ⟨m, hm⟩
    rw [hm, trimL_cons_not ha, ← hm, trimR_idem]

theorem firstIdx_cons (pat : List Char) (a : Char) (t : List Char) :
    firstIdx pat (a :: t) =
      if leadsWith pat (a :: t) then some 0 else (firstIdx pat t).map (· + 1) := rfl

theorem leads_nil_all (w : List Char) : leadsWith [] w = true := rfl

theorem containsP_nil_iff (pat : List Char) : containsP pat [] = true ↔ pat = [] := by
  cases pat with
  | nil => simp [containsP, firstIdx, leadsWith]
  | cons p ps => simp [containsP, firstIdx, leadsWith]

theorem containsP_of_leads {pat s : List Char} (h : leadsWith pat s = true) :
    containsP pat s = true := by
  cases s with
  | nil =>
    unfold containsP firstIdx
    rw [if_pos h]
    rfl
  | cons a t =>
    unfold containsP
    rw [firstIdx_cons, if_pos h]
    rfl

theorem containsP_cons (pat : List Char) (a : Char) (t : List Char) :
    containsP pat (a :: t) = (leadsWith pat (a :: t) || containsP pat t) := by
  unfold containsP
  rw [firstIdx_cons]
  by_cases h : leadsWith pat (a :: t) = true
  · rw [if_pos h]
    simp [h]
  · rw [if_neg h]
    simp only [Bool.not_eq_true] at h
    simp [h, Option.isSome_map]

theorem leads_append {pat v : List Char} (h : leadsWith pat v = true) (w : List Char) :
    leadsWith pat (v ++ w) = true := by
  induction pat generalizing v with
  | nil => rfl
  | cons p ps ih =>
    match v with
    | [] => cases h
    | c :: cs =>
      simp only [leadsWith, Bool.and_eq_true, decide_eq_true_eq] at h
      simp only [List.cons_append, leadsWith, Bool.and_eq_true, decide_eq_true_eq]
      exact ⟨h.1, ih h.2⟩

theorem contains_append_left {pat x : List Char} (h : containsP pat x = true)
    (w : List Char) : containsP pat (x ++ w) = true := by
  induction x with
  | nil =>
    have : pat = [] := (containsP_nil_iff pat).mp h
    subst this
    exact containsP_of_leads (leads_nil_all _)
  | cons a t ih =>
    rw [containsP_cons] at h
    rw [List.cons_append, containsP_cons]
    rcases Bool.or_eq_true_iff.mp h with h1 | h2
    · have := leads_append h1 w
      rw [List.cons_append] at this
      simp [this]
    · simp [ih h2]

theorem contains_append_right {pat t : List Char} (h : containsP pat t = true)
    (u : List Char) : containsP pat (u ++ t) = true := by
  induction u with
  | nil => simpa using h
  | cons a u' ih =>
    rw [List.cons_append, containsP_cons]
    simp [ih]

theorem contains_trimL {pat s : List Char} (h : containsP pat (trimL s) = true) :
    containsP pat s = true := by
  induction s with
  | nil => simpa [trimL] using h
  | cons a t ih =>
    by_cases hw : isWS a = true
    · rw [show trimL (a :: t) = trimL t from by
        simp [trimL, List.dropWhile_cons, hw]] at h
      rw [containsP_cons]
      simp [ih h]
    · rwa [trimL_cons_not (by simpa using hw)] at h

theorem contains_trimR {pat y : List Char} (h : containsP pat (trimR y) = true) :
    containsP pat y = true := by
  have hu : y.reverse.takeWhile isWS ++ List.dropWhile isWS y.reverse = y.reverse :=
    List.takeWhile_append_dropWhile isWS y.reverse
  have hy : trimR y ++ (y.reverse.takeWhile isWS).reverse = y := by
    unfold trimR
    rw [show trimL y.reverse = List.dropWhile isWS y.reverse from rfl,
      ← List.reverse_append, hu, List.reverse_reverse]
  rw [← hy]
  exact contains_append_left h _

theorem contains_trim {pat s : List Char} (h : containsP pat (trim s) = true) :
    containsP pat s = true :=
  contains_trimL (contains_trimR h)

theorem leads_of_take {pat u : List Char} : ∀ {n : Nat},
    leadsWith pat (u.take n) = true → leadsWith pat u = true := by
  induction pat generalizing u with
  | nil => intro n _; rfl
  | cons p ps ih =>
    intro n h
    match u, n with
    | _, 0 => cases h
    | [], n + 1 => cases h
    | c :: cs, m + 1 =>
      rw [List.take_succ_cons] at h
      simp only [leadsWith, Bool.and_eq_true, decide_eq_true_eq] at h ⊢
      exact ⟨h.1, ih h.2⟩

theorem firstIdx_min {pat : List Char} : ∀ {s : List Char} {i : Nat},
    firstIdx pat s = some i → ∀ j, j < i → leadsWith pat (s.drop j) = false := by
  intro s
  induction s with
  | nil =>
    intro i h j hj
    unfold firstIdx at h
    split at h
    · cases h
      omega
    · cases h
  | cons a t ih =>
    intro i h j hj
    rw [firstIdx_cons] at h
    by_cases hl : leadsWith pat (a :: t) = true
    · rw [if_pos hl] at h
      cases h
      omega
    · rw [if_neg hl] at h
      rcases Option.map_eq_some'.mp h with ⟨i', hi', rfl⟩
      match j with
      | 0 => simpa using hl
      | j' + 1 =>
        rw [List.drop_succ_cons]
        exact ih hi' j' (by omega)

theorem contains_take_occurs {pat : List Char} (hp : pat ≠ []) :
    ∀ {s : List Char} {n : Nat}, containsP pat (s.take n) = true →
    ∃ j, j < n ∧ leadsWith pat (s.drop j) = true := by
  intro s
  induction s with
  | nil =>
    intro n h
    rw [List.take_nil] at h
    exact absurd ((containsP_nil_iff pat).mp h) hp
  | cons a t ih =>
    intro n h
    match n with
    | 0 =>
      rw [List.take_zero] at h
      exact absurd ((containsP_nil_iff pat).mp h) hp
    | m + 1 =>
      rw [List.take_succ_cons, containsP_cons] at h
      rcases Bool.or_eq_true_iff.mp h with h1 | h2
      · refine ⟨0, by omega, ?_⟩
        rw [List.drop_zero]
        exact leads_of_take (n := m + 1) (by rwa [List.take_succ_cons])
      · rcases ih h2 with ⟨j, hj, hl⟩
        exact ⟨j + 1, by omega, by rwa [List.drop_succ_cons]⟩

theorem contains_take_sub {pat s : List Char} {n : Nat}
    (h : containsP pat (s.take n) = true) : containsP pat s = true := by
  rw [← List.take_append_drop n s]
  exact contains_append_left h _

theorem not_contains_take_of_firstIdx {pat s : List Char} {i n : Nat} (hp : pat ≠ [])
    (h : firstIdx pat s = some i) (hn : n ≤ i) : containsP pat (s.take n) = false := by
  rcases hc : containsP pat (s.take n) with _ | _
  · rfl
  · exfalso
    rcases contains_take_occurs hp hc with ⟨j, hj, hl⟩
    rw [firstIdx_min h j (by omega)] at hl
    cases hl

theorem not_contains_take_of_none {pat s : List Char} {n : Nat}
    (h : firstIdx pat s = none) : containsP pat (s.take n) = false := by
  rcases hc : containsP pat (s.take n) with _ | _
  · rfl
  · have := contains_take_sub hc
    unfold containsP at this
    rw [h] at this
    cases this

theorem not_contains_trim {pat z : List Char} (h : containsP pat z = false) :
    containsP pat (trim z) = false := by
  rcases hc : containsP pat (trim z) with _ | _
  · rfl
  · rw [contains_trim hc] at h
    cases h

theorem firstIdx_of_not_contains {pat y : List Char} (h : containsP pat y = false) :
    firstIdx pat y = none := by
  unfold containsP at h
  rcases hf : firstIdx pat y with _ | i
  · rfl
  · rw [hf] at h
    cases h

theorem takeBeforeP_eq_take {pat s : List Char} {i : Nat} (h : firstIdx pat s = some i) :
    takeBeforeP pat s = s.take i := by
  unfold takeBeforeP
  rw [h]

theorem containsP_nil_false {pat : List Char} (hp : pat ≠ []) :
    containsP pat [] = false := by
  rcases hc : containsP pat ([] : List Char) with _ | _
  · rfl
  · exact absurd ((containsP_nil_iff pat).mp hc) hp

theorem replaceAllF_succ_cons (pat rep : List Char) (n : Nat) (c : Char) (t : List Char) :
    replaceAllF pat rep (n + 1) (c :: t) =
      if pat ≠ [] ∧ leadsWith pat (c :: t) = true then
        rep ++ replaceAllF pat rep n ((c :: t).drop pat.length)
      else c :: replaceAllF pat rep n t := rfl

/-- A space-free pattern that leads the result of the space-replacing
`replaceAllF` already led the original string (the scan never skips a
match). -/
theorem leads_replaceAllF (pat : List Char) : ∀ (fuel : Nat) (s q : List Char),
    s.length ≤ fuel → q ≠ [] → (∀ c ∈ q, c ≠ ' ') →
    leadsWith q (replaceAllF pat [' '] fuel s) = true → leadsWith q s = true := by
  intro fuel
  induction fuel with
  | zero =>
    intro s q _ _ _ h
    exact h
  | succ n ih =>
    intro s q hlen hq hsp h
    unfold replaceAllF at h
    by_cases hc : pat ≠ [] ∧ leadsWith pat s = true
    · rw [if_pos hc] at h
      exfalso
      match q, hq with
      | qc :: q', _ =>
        simp only [List.singleton_append, leadsWith, Bool.and_eq_true,
          decide_eq_true_eq] at h
        exact hsp qc (by simp) h.1
    · rw [if_neg hc] at h
      match s with
      | [] => exact h
      | c :: t =>
        match q, hq with
        | qc :: q', _ =>
          simp only [leadsWith, Bool.and_eq_true, decide_eq_true_eq] at h ⊢
          refine ⟨h.1, ?_⟩
          rcases q' with _ | ⟨qd, q''⟩
          · rfl
          · refine ih t (qd :: q'') ?_ (by simp) ?_ h.2
            · simp only [List.length_cons] at hlen
              omega
            · intro c hcm
              exact hsp c (List.mem_cons_of_mem _ hcm)

/-- Replacing every occurrence of a non-empty space-free pattern by a space
leaves no occurrence of the pattern. -/
theorem replaceAllF_not_contains (pat : List Char) (hp : pat ≠ [])
    (hsp : ∀ c ∈ pat, c ≠ ' ') : ∀ (fuel : Nat) (s : List Char), s.length ≤ fuel →
    containsP pat (replaceAllF pat [' '] fuel s) = false := by
  intro fuel
  induction fuel with
  | zero =>
    intro s hlen
    have : s = [] := List.eq_nil_of_length_eq_zero (Nat.le_zero.mp hlen)
    subst this
    exact containsP_nil_false hp
  | succ n ih =>
    intro s hlen
    unfold replaceAllF
    by_cases hc : pat ≠ [] ∧ leadsWith pat s = true
    · rw [if_pos hc, List.singleton_append, containsP_cons]
      have hplen : 1 ≤ pat.length := by
        match pat, hp with
        | pc :: ps, _ => simp
      have h1 : leadsWith pat
          (' ' :: replaceAllF pat [' '] n (s.drop pat.length)) = false := by
        match pat, hp with
        | pc :: ps, _ =>
          have hne : pc ≠ ' ' := hsp pc (by simp)
          simp [leadsWith, hne]
      have h2 := ih (s.drop pat.length) (by simp; omega)
      rw [h1, h2]
      rfl
    · rw [if_neg hc]
      match s with
      | [] => exact containsP_nil_false hp
      | c :: t =>
        rw [containsP_cons]
        have h2 := ih t (by simp only [List.length_cons] at hlen; omega)
        have h1 : leadsWith pat (c :: replaceAllF pat [' '] n t) = false := by
          rcases hl : leadsWith pat (c :: replaceAllF pat [' '] n t) with _ | _
          · rfl
          · exfalso
            have he : replaceAllF pat [' '] (n + 1) (c :: t) =
                c :: replaceAllF pat [' '] n t := by
              rw [replaceAllF_succ_cons, if_neg hc]
            have := leads_replaceAllF pat (n + 1) (c :: t) pat hlen hp hsp
              (by rw [he]; exact hl)
            exact hc ⟨hp, this⟩
        rw [h1, h2]
        rfl

/-- `replace` in the DeepseekChat branch removes every occurrence of the
end-of-sentence sentinel. -/
theorem replaceAll_eos_not_contains (s : List Char) :
    containsP "<|end_of_sentence|>".toList
      (replaceAll "<|end_of_sentence|>".toList " ".toList s) = false := by
  have h := replaceAllF_not_contains "<|end_of_sentence|>".toList (by decide)
    (by decide) s.length s le_rfl
  exact h

theorem replaceAllF_nil {pat : List Char} (hp : pat ≠ []) (rep : List Char) :
    ∀ fuel, replaceAllF pat rep fuel [] = [] := by
  intro fuel
  cases fuel with
  | zero => rfl
  | succ n =>
    unfold replaceAllF
    rw [if_neg ?_]
    rintro ⟨-, hl⟩
    match pat, hp with
    | p :: ps, _ => cases hl

theorem trimR_eq_self_of_getLast {l : List Char} {c : Char} (h : l.getLast? = some c)
    (hc : isWS c = false) : trimR l = l := by
  have hh : l.reverse.head? = some c := by
    rw [← List.getLast?_reverse l.reverse, List.reverse_reverse]
    exact h
  unfold trimR
  cases hw : l.reverse with
  | nil => rw [hw] at hh; cases hh
  | cons a t =>
    rw [hw] at hh
    have ha : a = c := by injection hh
    rw [trimL_cons_not (by rw [ha]; exact hc), ← hw, List.reverse_reverse]

/-- A non-empty trimmed string ends in a non-whitespace character. -/
theorem trim_getLast_not_WS {z : List Char} (h : trim z ≠ []) :
    ∃ c, (trim z).getLast? = some c ∧ isWS c = false := by
  unfold trim trimR at h ⊢
  cases hw : trimL (trimL z).reverse with
  | nil => rw [hw] at h; simp at h
  | cons a t =>
    have ha : isWS a = false := trimL_cons_shape hw
    exact ⟨a, by rw [List.getLast?_reverse]; rfl, ha⟩

theorem leads_exists {p s : List Char} (h : leadsWith p s = true) :
    ∃ t, s = p ++ t := by
  induction p generalizing s with
  | nil => exact ⟨s, rfl⟩
  | cons a p ih =>
    match s with
    | [] => exact absurd h (by simp [leadsWith])
    | c :: t =>
      simp only [leadsWith, Bool.and_eq_true, decide_eq_true_eq] at h
      rcases ih h.2 with ⟨u, hu⟩
      exact ⟨u, by rw [List.cons_append, ← h.1, hu]⟩

theorem leads_hash_answer_shape {s : List Char}
    (h : leadsWith "### Answer".toList s = true) :
    ∃ s5, s = '#' :: '#' :: '#' :: ' ' :: 'A' :: s5 := by
  rcases leads_exists h with ⟨t, rfl⟩
  exact ⟨'n' :: 's' :: 'w' :: 'e' :: 'r' :: t, rfl⟩

theorem leads_answer_nl_shape {s : List Char}
    (h : leadsWith "Answer:\n".toList s = true) :
    ∃ s8, s = 'A' :: 'n' :: 's' :: 'w' :: 'e' :: 'r' :: ':' :: '\n' :: s8 := by
  rcases leads_exists h with ⟨t, rfl⟩
  exact ⟨t, rfl⟩

theorem tsmF_hash (k : Nat) (s5 : List Char) :
    trimStartMatchesF "###".toList (k + 2) ('#' :: '#' :: '#' :: ' ' :: 'A' :: s5) =
      ' ' :: 'A' :: s5 := by
  show trimStartMatchesF "###".toList (k + 1 + 1) _ = _
  unfold trimStartMatchesF
  rw [if_pos ⟨by decide, by simp [leadsWith]⟩]
  show trimStartMatchesF "###".toList (k + 1) (' ' :: 'A' :: s5) = _
  unfold trimStartMatchesF
  rw [if_neg ?_]
  rintro ⟨-, hl⟩
  simp [leadsWith] at hl

theorem tsm_hash (s5 : List Char) :
    trimStartMatches "###".toList ('#' :: '#' :: '#' :: ' ' :: 'A' :: s5) =
      ' ' :: 'A' :: s5 := by
  unfold trimStartMatches
  rw [show ('#' :: '#' :: '#' :: ' ' :: 'A' :: s5).length = s5.length + 3 + 2 from by
    simp]
  exact tsmF_hash _ s5

theorem replaceAll_answer_eq (s8 : List Char) :
    replaceAll "Answer:\n".toList "Answer: ".toList
      ('A' :: 'n' :: 's' :: 'w' :: 'e' :: 'r' :: ':' :: '\n' :: s8) =
    "Answer: ".toList ++ replaceAllF "Answer:\n".toList "Answer: ".toList
      (s8.length + 7) s8 := by
  unfold replaceAll
  rw [show ('A' :: 'n' :: 's' :: 'w' :: 'e' :: 'r' :: ':' :: '\n' :: s8).length =
    (s8.length + 7) + 1 from by simp]
  rw [replaceAllF_succ_cons, if_pos ⟨by decide, by simp [leadsWith]⟩]
  rfl

/-- For the Solar replacement (`"Answer:\n"` → `"Answer: "`), a string ending
in a non-whitespace character keeps a non-whitespace last character: the
pattern cannot match at the very end since it ends in `'\n'`. -/
theorem replaceAllF_answer_last : ∀ (fuel : Nat) (s : List Char), s.length ≤ fuel →
    (∃ c, s.getLast? = some c ∧ isWS c = false) →
    ∃ d, (replaceAllF "Answer:\n".toList "Answer: ".toList fuel s).getLast? = some d ∧
      isWS d = false := by
  intro fuel
  induction fuel with
  | zero =>
    intro s hlen hc
    exact hc
  | succ n ih =>
    intro s hlen hc
    by_cases hl : leadsWith "Answer:\n".toList s = true
    · rcases leads_answer_nl_shape hl with ⟨s8, rfl⟩
      rcases hc with ⟨c, hcl, hcw⟩
      match s8 with
      | [] =>
        exfalso
        cases hcl
        exact Bool.false_ne_true hcw.symm
      | e :: s8' =>
        have hcl' : (e :: s8').getLast? = some c := by
          rw [show ('A' :: 'n' :: 's' :: 'w' :: 'e' :: 'r' :: ':' :: '\n' :: e :: s8') =
            ('A' :: 'n' :: 's' :: 'w' :: 'e' :: 'r' :: ':' :: '\n' :: []) ++ e :: s8'
            from rfl] at hcl
          rwa [List.getLast?_append_of_ne_nil _ (by simp)] at hcl
        rcases ih (e :: s8') (by simp only [List.length_cons] at hlen ⊢; omega)
          ⟨c, hcl', hcw⟩ with ⟨d, hd, hdw⟩
        refine ⟨d, ?_, hdw⟩
        rw [replaceAllF_succ_cons, if_pos ⟨by decide, hl⟩]
        rw [show (('A' :: 'n' :: 's' :: 'w' :: 'e' :: 'r' :: ':' :: '\n' :: e :: s8').drop
          ("Answer:\n".toList.length)) = e :: s8' from rfl]
        rw [List.getLast?_append_of_ne_nil _ ?_]
        · exact hd
        · intro he
          rw [he] at hd
          cases hd
    · match s with
      | [] =>
        rcases hc with ⟨c, hcl, -⟩
        cases hcl
      | e :: t =>
        rw [replaceAllF_succ_cons, if_neg (fun hx => hl hx.2)]
        match t with
        | [] =>
          rw [replaceAllF_nil (by decide) _ n]
          exact hc
        | f :: t' =>
          rcases hc with ⟨c, hcl, hcw⟩
          have hcl' : (f :: t').getLast? = some c := by
            rw [show (e :: f :: t') = [e] ++ f :: t' from rfl] at hcl
            rwa [List.getLast?_append_of_ne_nil _ (by simp)] at hcl
          rcases ih (f :: t') (by simp only [List.length_cons] at hlen ⊢; omega)
            ⟨c, hcl', hcw⟩ with ⟨d, hd, hdw⟩
          refine ⟨d, ?_, hdw⟩
          rw [show (e :: replaceAllF "Answer:\n".toList "Answer: ".toList n (f :: t')) =
            [e] ++ replaceAllF "Answer:\n".toList "Answer: ".toList n (f :: t') from rfl]
          rw [List.getLast?_append_of_ne_nil _ ?_]
          · exact hd
          · intro he
            rw [he] at hd
            cases hd

/-! ### Per-template shapes of `post_process` and idempotence on its image -/

theorem post_process_chatML_eq (out : List Char) :
    post_process .chatML out =
      some (match firstIdx "<|im_start|>".toList out, firstIdx "<|im_end|>".toList out with
      | some idxStart, some idxEnd =>
        if idxStart ≤ idxEnd then trim (takeBeforeP "<|im_start|>".toList out)
        else trim (takeBeforeP "<|im_end|>".toList out)
      | some _, none => trim (takeBeforeP "<|im_start|>".toList out)
      | none, some _ => trim (takeBeforeP "<|im_end|>".toList out)
      | none, none => trim out) := rfl

theorem post_process_chatMLTool_eq (out : List Char) :
    post_process .chatMLTool out =
      some (match firstIdx "<|im_start|>".toList out, firstIdx "<|im_end|>".toList out with
      | some idxStart, some idxEnd =>
        if idxStart ≤ idxEnd then trim (takeBeforeP "<|im_start|>".toList out)
        else trim (takeBeforeP "<|im_end|>".toList out)
      | some _, none => trim (takeBeforeP "<|im_start|>".toList out)
      | none, some _ => trim (takeBeforeP "<|im_end|>".toList out)
      | none, none => trim out) := rfl

theorem post_process_solar_eq (out : List Char) :
    post_process .solarInstruct out =
      some (if leadsWith "### Answer".toList (trim out) then
        if leadsWith "Answer:\n".toList (trim (trimStartMatches "###".toList (trim out))) then
          replaceAll "Answer:\n".toList "Answer: ".toList
            (trim (trimStartMatches "###".toList (trim out)))
        else trim (trimStartMatches "###".toList (trim out))
      else trim out) := rfl

theorem post_process_deepseek_eq (out : List Char) :
    post_process .deepseekChat out =
      some (if containsP "<|end_of_sentence|>".toList out then
        trim (replaceAll "<|end_of_sentence|>".toList " ".toList
          (trim (trimEndMatches "<|end_of_sentence|>".toList out)))
      else trim out) := rfl

theorem post_process_qwen2vl_eq (out : List Char) :
    post_process .qwen2vl out = some (trim out) := rfl

theorem post_process_codeLlama_eq (out : List Char) :
    post_process .codeLlama out = some (trim out) := rfl

/-- The ChatML/ChatMLTool branch always produces the `trim` of a string that
contains neither `<|im_start|>` nor `<|im_end|>`. -/
theorem chatML_branch_clean (t : PromptTemplateType)
    (ht : t = .chatML ∨ t = .chatMLTool) (out : List Char) :
    ∃ x, post_process t out = some (trim x) ∧
      containsP "<|im_start|>".toList x = false ∧
      containsP "<|im_end|>".toList x = false := by
  have hbody : post_process t out =
      some (match firstIdx "<|im_start|>".toList out, firstIdx "<|im_end|>".toList out with
      | some idxStart, some idxEnd =>
        if idxStart ≤ idxEnd then trim (takeBeforeP "<|im_start|>".toList out)
        else trim (takeBeforeP "<|im_end|>".toList out)
      | some _, none => trim (takeBeforeP "<|im_start|>".toList out)
      | none, some _ => trim (takeBeforeP "<|im_end|>".toList out)
      | none, none => trim out) := by
    rcases ht with rfl | rfl
    · exact post_process_chatML_eq out
    · exact post_process_chatMLTool_eq out
  rcases hS : firstIdx "<|im_start|>".toList out with _ | i <;>
    rcases hE : firstIdx "<|im_end|>".toList out with _ | j
  · refine ⟨out, ?_, by unfold containsP; rw [hS]; rfl, by unfold containsP; rw [hE]; rfl⟩
    rw [hbody, hS, hE]
  · refine ⟨out.take j, ?_, not_contains_take_of_none hS,
      not_contains_take_of_firstIdx (by decide) hE le_rfl⟩
    rw [hbody, hS, hE]
    dsimp only
    rw [takeBeforeP_eq_take hE]
  · refine ⟨out.take i, ?_, not_contains_take_of_firstIdx (by decide) hS le_rfl,
      not_contains_take_of_none hE⟩
    rw [hbody, hS, hE]
    dsimp only
    rw [takeBeforeP_eq_take hS]
  · by_cases hij : i ≤ j
    · refine ⟨out.take i, ?_, not_contains_take_of_firstIdx (by decide) hS le_rfl,
        not_contains_take_of_firstIdx (by decide) hE hij⟩
      rw [hbody, hS, hE]
      dsimp only
      rw [if_pos hij, takeBeforeP_eq_take hS]
    · refine ⟨out.take j, ?_,
        not_contains_take_of_firstIdx (by decide) hS (Nat.le_of_lt (Nat.lt_of_not_le hij)),
        not_contains_take_of_firstIdx (by decide) hE le_rfl⟩
      rw [hbody, hS, hE]
      dsimp only
      rw [if_neg hij, takeBeforeP_eq_take hE]

theorem chatML_branch_idem (t : PromptTemplateType)
    (ht : t = .chatML ∨ t = .chatMLTool) (out r : List Char)
    (h : post_process t out = some r) : post_process t r = some r := by
  rcases chatML_branch_clean t ht out with ⟨x, hx, hs, he⟩
  rw [hx, Option.some.injEq] at h
  subst h
  have hfs : firstIdx "<|im_start|>".toList (trim x) = none :=
    firstIdx_of_not_contains (not_contains_trim hs)
  have hfe : firstIdx "<|im_end|>".toList (trim x) = none :=
    firstIdx_of_not_contains (not_contains_trim he)
  rcases ht with rfl | rfl
  · rw [post_process_chatML_eq, hfs, hfe]
    dsimp only
    rw [trim_trim]
  · rw [post_process_chatMLTool_eq, hfs, hfe]
    dsimp only
    rw [trim_trim]

theorem leads_hash_answer_A_false (m : List Char) :
    leadsWith "### Answer".toList ('A' :: m) = false := by
  rcases hl : leadsWith "### Answer".toList ('A' :: m) with _ | _
  · rfl
  · rcases leads_hash_answer_shape hl with ⟨s5, hs5⟩
    cases hs5

theorem solar_branch_idem (out r : List Char)
    (h : post_process .solarInstruct out = some r) :
    post_process .solarInstruct r = some r := by
  rw [post_process_solar_eq, Option.some.injEq] at h
  rcases hA : leadsWith "### Answer".toList (trim out) with _ | _
  · rw [hA] at h
    simp only [Bool.false_eq_true, if_false] at h
    subst h
    rw [post_process_solar_eq, trim_trim, hA]
    simp
  · rw [hA] at h
    simp only [if_true] at h
    rcases leads_hash_answer_shape hA with ⟨s5, h5⟩
    have hL : trimL (' ' :: 'A' :: s5) = 'A' :: s5 := by
      unfold trimL
      rw [List.dropWhile_cons, if_pos (by decide), List.dropWhile_cons, if_neg (by decide)]
    have hs2 : trim (trimStartMatches "###".toList (trim out)) = trimR ('A' :: s5) := by
      rw [h5, tsm_hash]
      unfold trim
      rw [hL]
    rcases trimR_cons_head (show isWS 'A' = false by decide) s5 with ⟨m, hm⟩
    rcases hB : leadsWith "Answer:\n".toList
        (trim (trimStartMatches "###".toList (trim out))) with _ | _
    · rw [hB] at h
      simp only [Bool.false_eq_true, if_false] at h
      have hr : r = 'A' :: m := by rw [← h, hs2, hm]
      have htr : trim r = r := by
        rw [← h, hs2]
        unfold trim
        rw [hm, trimL_cons_not (by decide), ← hm, trimR_idem]
      rw [post_process_solar_eq, htr, hr, leads_hash_answer_A_false]
      simp [← hr]
    · rw [hB] at h
      simp only [if_true] at h
      rcases leads_answer_nl_shape hB with ⟨s8, h8⟩
      have hne : trim (trimStartMatches "###".toList (trim out)) ≠ [] := by
        rw [h8]
        exact List.cons_ne_nil _ _
      rcases trim_getLast_not_WS hne with ⟨c, hcl, hcw⟩
      rcases hs8 : s8 with _ | ⟨e, s8t⟩
      · rw [hs8] at h8
        rw [h8] at hcl
        rw [show (('A' :: 'n' :: 's' :: 'w' :: 'e' :: 'r' :: ':' :: '\n' ::
          ([] : List Char))).getLast? = some '\n' from rfl] at hcl
        injection hcl with hcn
        rw [← hcn] at hcw
        exact absurd hcw (by decide)
      · have hcl' : s8.getLast? = some c := by
          rw [h8, show ('A' :: 'n' :: 's' :: 'w' :: 'e' :: 'r' :: ':' :: '\n' :: s8) =
            ['A', 'n', 's', 'w', 'e', 'r', ':', '\n'] ++ s8 from rfl,
            List.getLast?_append_of_ne_nil _ (by rw [hs8]; exact List.cons_ne_nil _ _)] at hcl
          exact hcl
        rcases replaceAllF_answer_last (s8.length + 7) s8 (by omega) ⟨c, hcl', hcw⟩
          with ⟨d, hd, hdw⟩
        have hr : r = "Answer: ".toList ++
            replaceAllF "Answer:\n".toList "Answer: ".toList (s8.length + 7) s8 := by
          rw [← h, h8, replaceAll_answer_eq]
        have hrl : r.getLast? = some d := by
          rw [hr, List.getLast?_append_of_ne_nil _ (fun hnil => by rw [hnil] at hd; cases hd)]
          exact hd
        have hrshape : ∃ m2, r = 'A' :: m2 := by
          rw [hr]
          exact ⟨'n' :: 's' :: 'w' :: 'e' :: 'r' :: ':' :: ' ' ::
            replaceAllF "Answer:\n".toList "Answer: ".toList (s8.length + 7) s8, rfl⟩
        rcases hrshape with ⟨m2, hm2⟩
        have htr : trim r = r := by
          unfold trim
          rw [hm2, trimL_cons_not (by decide), ← hm2,
            trimR_eq_self_of_getLast hrl hdw]
        rw [post_process_solar_eq, htr, hm2, leads_hash_answer_A_false]
        simp [← hm2]

theorem deepseek_branch_idem (out r : List Char)
    (h : post_process .deepseekChat out = some r) :
    post_process .deepseekChat r = some r := by
  rw [post_process_deepseek_eq, Option.some.injEq] at h
  rcases hc : containsP "<|end_of_sentence|>".toList out with _ | _
  · rw [hc] at h
    simp only [Bool.false_eq_true, if_false] at h
    subst h
    have hc2 : containsP "<|end_of_sentence|>".toList (trim out) = false :=
      not_contains_trim hc
    rw [post_process_deepseek_eq, hc2]
    simp [trim_trim]
  · rw [hc] at h
    simp only [if_true] at h
    subst h
    have hc2 : containsP "<|end_of_sentence|>".toList
        (trim (replaceAll "<|end_of_sentence|>".toList " ".toList
          (trim (trimEndMatches "<|end_of_sentence|>".toList out)))) = false :=
      not_contains_trim (replaceAll_eos_not_contains _)
    rw [post_process_deepseek_eq, hc2]
    simp [trim_trim]

/-! ## Claim theorems -/

/-- **C1** (code bug evidence): the claim says every response satisfies
`usage.total_tokens = prompt_tokens + completion_tokens`.  The one-shot
`PromptTooLong` branch instead computes `completion + completion`
(chat.rs 1125): at `TokenInfo {prompt 3, completion 2}` it produces
`total_tokens = 4` instead of `5`.  Every other usage site (one-shot `Ok`
and `ContextFull`, and all streaming usage chunks) satisfies the claim. -/
theorem usage_total_tokens_prompt_too_long_bug :
    oneShotUsage .promptTooLong ⟨3, 2⟩ = ⟨3, 2, 4⟩ ∧
    (oneShotUsage .promptTooLong ⟨3, 2⟩).total_tokens ≠ 3 + 2 ∧
    (∀ t : TokenInfo, (oneShotUsage .success t).total_tokens =
      t.prompt_tokens + t.completion_tokens) ∧
    (∀ t : TokenInfo, (oneShotUsage .contextFull t).total_tokens =
      t.prompt_tokens + t.completion_tokens) ∧
    (∀ t : TokenInfo, (streamUsage t).total_tokens =
      t.prompt_tokens + t.completion_tokens) :=
  ⟨rfl, by decide, fun _ => rfl, fun _ => rfl, fun _ => rfl⟩

/-- **C2** (counterexample): on `[System, Tool, User, User]` the pruning
iteration removes no message (neither index-1 test fires) and does not
return — the loop continues with the identical list, although the list is
not one of the claimed minimal shapes.  This refutes "each iteration removes
at least one message … unless the list has reached a minimal shape". -/
theorem prune_step_stall_counterexample :
    pruneStep [.system, .tool, .user, .user] =
      .pruned [.system, .tool, .user, .user] ∧
    ¬ minimalShape [.system, .tool, .user, .user] := by
  refine ⟨by decide, ?_⟩
  unfold minimalShape
  decide

/-- **C2** (amended): restricted to well-formed conversations (an optional
leading System turn followed by complete user/assistant exchanges — with
tool-continuation exchanges only when there is no leading System — ending in
the final User message), each pruning iteration either hits exactly the two
minimal shapes and returns the current prompt, or removes at least one
message and preserves well-formedness; consequently the `build_prompt` loop
terminates with a result (no panic) within `length + 1` iterations for every
token oracle and limit. -/
theorem build_prompt_prune_progress_and_termination (msgs : List Role)
    (hg : GoodMsgs msgs) :
    ((minimalShape msgs ∧ pruneStep msgs = .ret) ∨
      (∃ m', pruneStep msgs = .pruned m' ∧ m'.length < msgs.length ∧ GoodMsgs m')) ∧
    (∀ (promptTokens : List Role → Nat) (maxPromptTokens : Nat),
      ∃ r, buildPromptLoop promptTokens maxPromptTokens (msgs.length + 1) msgs = .ok r) :=
  ⟨pruneStep_progress hg, fun p m => buildPromptLoop_ok msgs.length msgs hg le_rfl p m⟩

/-- **C2** (witness): the amended theorem applied to the well-formed
conversation `[System, User, Assistant, User]`. -/
theorem build_prompt_prune_witness :
    GoodMsgs [Role.system, Role.user, Role.assistant, Role.user] ∧
    (((minimalShape [Role.system, Role.user, Role.assistant, Role.user] ∧
        pruneStep [Role.system, Role.user, Role.assistant, Role.user] = .ret) ∨
      (∃ m', pruneStep [Role.system, Role.user, Role.assistant, Role.user] = .pruned m' ∧
        m'.length < [Role.system, Role.user, Role.assistant, Role.user].length ∧
        GoodMsgs m')) ∧
    (∀ (promptTokens : List Role → Nat) (maxPromptTokens : Nat),
      ∃ r, buildPromptLoop promptTokens maxPromptTokens
        ([Role.system, Role.user, Role.assistant, Role.user].length + 1)
        [Role.system, Role.user, Role.assistant, Role.user] = .ok r)) :=
  ⟨Or.inr ⟨[Role.user, Role.assistant, Role.user], rfl, SConv.pair SConv.single⟩,
    build_prompt_prune_progress_and_termination
      [Role.system, Role.user, Role.assistant, Role.user]
      (Or.inr ⟨[Role.user, Role.assistant, Role.user], rfl, SConv.pair SConv.single⟩)⟩

/-- **C3** (counterexample): the byte stream `[F0] · [9F 98 80 F0 9F 98] ·
[80]` concatenates to two U+1F600 characters — valid UTF-8 — yet the second
pull grows the residual to 7 undecodable bytes and the driver raises the
operation error, so no emitted contents can equal the decoding.  This
refutes the unconditional reassembly equality. -/
theorem utf8_reassembly_error_counterexample :
    utf8Decode (List.flatten [[0xF0], [0x9F, 0x98, 0x80, 0xF0, 0x9F, 0x98], [0x80]]) =
      some [0x1F600, 0x1F600] ∧
    streamRun [] [[0xF0], [0x9F, 0x98, 0x80, 0xF0, 0x9F, 0x98], [0x80]] = none := by
  exact ⟨by decide, by decide⟩

/-- **C3** (amended): for every sequence of token buffers whose
concatenation is valid UTF-8 and on which the driver raises no operation
error (the residual never exceeds 4 undecodable bytes), the concatenation of
the emitted `delta.content` strings equals the UTF-8 decoding of the
concatenated bytes, and the residual finishes empty. -/
theorem utf8_reassembly_equals_decode (bufs : List (List Nat)) (cs : List Nat)
    (hvalid : utf8Decode bufs.flatten = some cs) (out : List (List Nat)) (rf : List Nat)
    (hrun : streamRun [] bufs = some (out, rf)) :
    out.flatten = cs ∧ rf = [] :=
  streamRun_decode bufs [] cs (Or.inl rfl) (by simpa using hvalid) out rf hrun

/-- **C3** (witness): `"é"` split into its two UTF-8 bytes across two pulls:
the first pull emits the empty string and caches the byte, the second emits
`"é"`; the concatenation equals the decoding. -/
theorem utf8_reassembly_witness :
    utf8Decode (List.flatten [[0xC3], [0xA9]]) = some [0xE9] ∧
    streamRun [] [[0xC3], [0xA9]] = some ([[], [0xE9]], []) ∧
    (List.flatten [[], [0xE9]] = [0xE9] ∧ ([] : List Nat) = []) :=
  ⟨by decide, by decide,
    utf8_reassembly_equals_decode [[0xC3], [0xA9]] [0xE9] (by decide) [[], [0xE9]] []
      (by decide)⟩

/-- **C4** (counterexample): driving a fresh stream with `ContextFull` on
every pull, `finish_single` is invoked on none of the four pulls — in
particular not on the pull following `data: [DONE]\n\n`, which the claim
asserts.  The guard at the top of `compute_stream` returns the terminator
before `compute_single`/`finish_single` can run; cleanup is left to the
`Drop` implementation. -/
theorem context_full_no_finish_single_counterexample :
    (runSteps true ⟨3, 2⟩ [.contextFull, .contextFull, .contextFull, .contextFull]
      (chatStreamInit true)).map Prod.snd = [false, false, false, false] ∧
    (runSteps true ⟨3, 2⟩ [.contextFull, .contextFull, .contextFull, .contextFull]
      (chatStreamInit true)).map Prod.fst =
      [.sse ⟨[⟨some sentinelCF, some .length⟩], none⟩,
       .sse ⟨[], some ⟨3, 2, 5⟩⟩, .doneLit, .eos] := by
  exact ⟨by decide, by decide⟩

/-- **C4** (amended): whenever `compute_single` first reports `ContextFull`,
the stream emits, over successive pulls: a chunk with `delta.content`
`"<|WASMEDGE-GGML-CONTEXT-FULL|>"` and `finish_reason: length`; then — iff
`include_usage` — one usage chunk; then the literal `data: [DONE]\n\n`; and
on the following pull the terminator, terminating the stream *without*
invoking `finish_single` on that pull (release is performed by the stream's
destructor).  The state machine is `Message → (Usage | Done) → Done →
EndOfSequence`, and `Ok` pulls never disturb `ContextFullState`. -/
theorem context_full_stream_trace (t : TokenInfo) :
    runSteps true t [.contextFull, .contextFull, .contextFull, .contextFull]
      (chatStreamInit true) =
      [(.sse ⟨[⟨some sentinelCF, some .length⟩], none⟩, false),
       (.sse ⟨[], some (streamUsage t)⟩, false),
       (.doneLit, false),
       (.eos, false)] ∧
    runSteps false t [.contextFull, .contextFull, .contextFull]
      (chatStreamInit false) =
      [(.sse ⟨[⟨some sentinelCF, some .length⟩], none⟩, false),
       (.doneLit, false),
       (.eos, false)] ∧
    (∀ (inc : Bool) (bytes : List Nat) (st : StreamSt),
      ((computeStreamStep inc t (.ok bytes) st).2.1).context_full_state =
        st.context_full_state) := by
  refine ⟨rfl, rfl, ?_⟩
  intro inc bytes st
  unfold computeStreamStep
  split
  · rfl
  · rcases h : streamStep st.residual bytes with ⟨co, r⟩
    cases co <;> simp [h]

/-- **C5** (counterexample): with the MistralTool template and no parsed
records (`values = []`), `parse_tool_calls` returns `Some []` — not `None` —
and the one-shot driver therefore answers `finish_reason: tool_calls` with
an empty `tool_calls` list, not `finish_reason: stop`. -/
theorem parse_tool_calls_empty_counterexample :
    parse_tool_calls .mistralTool [] = some [] ∧
    oneShotToolDispatch (parse_tool_calls .mistralTool []) = (.tool_calls, []) ∧
    (FinishReason.tool_calls ≠ FinishReason.stop) := by
  exact ⟨rfl, rfl, by decide⟩

/-- **C5** (amended): for the MistralTool and ChatMLTool templates
`parse_tool_calls` always returns `Some` of the records built from the
captures — `Some []` when nothing matched or parsed — so the one-shot driver
answers `finish_reason: "tool_calls"` with an empty `tool_calls` list in the
no-match case; `finish_reason: "stop"` arises only from the `None` of other
templates. -/
theorem parse_tool_calls_no_match_behavior :
    (∀ values, parse_tool_calls .mistralTool values =
      some (values.map fun v => ⟨"call_abc123".toList, "function".toList, v⟩)) ∧
    (∀ values, parse_tool_calls .chatMLTool values =
      some (values.map fun v => ⟨"call_abc123".toList, "function".toList, v⟩)) ∧
    oneShotToolDispatch (parse_tool_calls .mistralTool []) = (.tool_calls, []) ∧
    oneShotToolDispatch (parse_tool_calls .chatMLTool []) = (.tool_calls, []) ∧
    oneShotToolDispatch none = (.stop, []) :=
  ⟨fun _ => rfl, fun _ => rfl, rfl, rfl, rfl⟩

/-- **C6** (counterexample): with `tool_choice = Auto` and `tools = Some []`
(an empty sequence, present), `build_prompt` returns `tool_use = true` — the
code tests presence of the `tools` field, not non-emptiness — refuting
"empty sequence → tool_use = false". -/
theorem tool_use_empty_tools_counterexample :
    buildPromptToolUse (some .auto) (some []) = true := rfl

/-- **C6** (amended): `tool_use = true` exactly when `tool_choice` is `Auto`
or `Named` and the `tools` field is *present* (`Some`, possibly empty);
an absent `tools` field (`None`) disables tool use with a warning. -/
theorem tool_use_iff_choice_and_tools_present
    (tool_choice : Option ToolChoice) (tools : Option (List Tool)) :
    buildPromptToolUse tool_choice tools = true ↔
      ((tool_choice = some .auto ∨ ∃ n, tool_choice = some (.named n)) ∧
        tools.isSome = true) := by
  cases tool_choice with
  | none => simp [buildPromptToolUse]
  | some tc =>
    cases tc <;> cases tools <;> simp [buildPromptToolUse]

/-- **C7** (counterexample): with `max_tokens = 16`, current `n_predict =
16` and `available = 100`, the new value equals the old one yet the
metadata is written back (`should_update` is set unconditionally in the
`max_tokens` branch) — refuting "pushes … if and only if the value
changed". -/
theorem update_n_predict_writeback_counterexample :
    update_n_predict (some 16) 16 100 = (16, true) := rfl

/-- **C7** (amended): `update_n_predict` sets `n_predict` to
`min(max_tokens, available)` when `max_tokens` is given and otherwise to
`min(n_predict, available)`, and writes the metadata back if and only if
`max_tokens` is given (even when unchanged) or `n_predict` exceeded
`available`. -/
theorem update_n_predict_value_and_writeback (max_tokens : Option Nat)
    (n_predict available : Nat) :
    (update_n_predict max_tokens n_predict available).1 =
      (match max_tokens with
       | some mt => min mt available
       | none => min n_predict available) ∧
    ((update_n_predict max_tokens n_predict available).2 = true ↔
      (max_tokens.isSome = true ∨ available < n_predict)) := by
  cases max_tokens with
  | none =>
    unfold update_n_predict
    by_cases h : n_predict > available
    · rw [if_pos h]
      refine ⟨?_, by simpa using h⟩
      show available = min n_predict available
      omega
    · rw [if_neg h]
      refine ⟨?_, by simpa using h⟩
      show n_predict = min n_predict available
      omega
  | some mt =>
    refine ⟨?_, by simp [update_n_predict]⟩
    show (if available < mt then available else mt) = min mt available
    by_cases h : available < mt
    · rw [if_pos h]
      omega
    · rw [if_neg h]
      omega

/-- **C8** (counterexample): the Zephyr-family post-processor is not
idempotent.  On `"a</s></s><"` the first pass strips the `"</s><"` suffix
and leaves `"a</s>"`; a second pass strips the now-trailing `"</s>"` and
leaves `"a"`, a different string. -/
theorem post_process_zephyr_not_idempotent :
    post_process .zephyr "a</s></s><".toList = some "a</s>".toList ∧
    post_process .zephyr "a</s>".toList = some "a".toList ∧
    ("a".toList : List Char) ≠ "a</s>".toList :=
  ⟨by decide, by decide, by decide⟩

/-- **C8** (amended): `post_process` is idempotent on the templates whose
branches cut at sentinel occurrences or only trim — ChatML, ChatMLTool,
SolarInstruct, DeepseekChat and the default-trim templates (e.g. Qwen2vl,
CodeLlama): whenever a first pass succeeds with output `r`, a second pass
on `r` succeeds and returns `r` unchanged.  (The suffix-stripping families,
e.g. Zephyr, violate idempotence.) -/
theorem post_process_idempotent_on (t : PromptTemplateType) (out r : List Char)
    (ht : t = .chatML ∨ t = .chatMLTool ∨ t = .solarInstruct ∨ t = .deepseekChat ∨
      t = .qwen2vl ∨ t = .codeLlama)
    (h : post_process t out = some r) :
    post_process t r = some r := by
  rcases ht with rfl | rfl | rfl | rfl | rfl | rfl
  · exact chatML_branch_idem _ (Or.inl rfl) out r h
  · exact chatML_branch_idem _ (Or.inr rfl) out r h
  · exact solar_branch_idem out r h
  · exact deepseek_branch_idem out r h
  · rw [post_process_qwen2vl_eq, Option.some.injEq] at h
    subst h
    rw [post_process_qwen2vl_eq, trim_trim]
  · rw [post_process_codeLlama_eq, Option.some.injEq] at h
    subst h
    rw [post_process_codeLlama_eq, trim_trim]

/-- **C8** witness: a second ChatML pass on the output of a first pass
returns it unchanged. -/
theorem post_process_idempotent_witness :
    post_process .chatML "hi".toList = some "hi".toList ∧
    post_process .chatML "hi<|im_end|>x".toList = some "hi".toList :=
  ⟨post_process_idempotent_on .chatML "hi<|im_end|>x".toList "hi".toList
      (Or.inl rfl) (by decide),
   by decide⟩

/-- **C9** (code bug evidence): `post_process` panics instead of returning:
for each of the Zephyr, MistralLite, MistralTool and MistralInstruct
templates, an input containing `"</s>"` other than as a trailing suffix
reaches `strip_suffix("</s>").unwrap()` on `None` (chat.rs 1438-1444). -/
theorem post_process_interior_eos_panics :
    post_process .zephyr "a</s>b".toList = none ∧
    post_process .mistralLite "a</s>b".toList = none ∧
    post_process .mistralTool "a</s>b".toList = none ∧
    post_process .mistralInstruct "a</s>b".toList = none := by
  exact ⟨by decide, by decide, by decide, by decide⟩

/-- **C10** (confirmed): in the Qwen2vl renderer, for every user message in
`Parts` form whose image parts are all given by URL, each image renders as
the sentinel `<image>` wrapped as `<|vision_start|><image><|vision_end|>`,
and these wrapped sentinels are placed in the user's turn directly after
`<|im_start|>user\n`, before the concatenated (trimmed) text parts. -/
theorem qwen2vl_url_image_rendering (gif : List Char → Option (List Char))
    (chat_history system_prompt : List Char) (parts : List QContentPart)
    (hurl : qwenNoBase64 parts = true) :
    qwenAppendUserParts gif chat_history system_prompt parts =
      some ((if chat_history = [] then trim system_prompt else trim chat_history) ++
        '\n' :: "<|im_start|>user\n".toList ++
        List.flatten (List.replicate (qwenImageCount parts) qwenSentinel) ++
        trim (qwenTextCollect parts) ++ "<|im_end|>".toList) := by
  unfold qwenAppendUserParts
  rw [qwenImageContents_url hurl]
  dsimp only
  rw [qwenImageEmbeddings_replicate, trim_qwenSentinel_flatten]

/-- **C10** (witness): the rendering theorem applied to a user message with
one URL image part and one text part and an empty chat history. -/
theorem qwen2vl_url_image_witness :
    qwenNoBase64 [QContentPart.imageUrl "http://x/a.png".toList,
      QContentPart.text "hi".toList] = true ∧
    qwenAppendUserParts (fun _ => none) [] "sys".toList
      [QContentPart.imageUrl "http://x/a.png".toList, QContentPart.text "hi".toList] =
      some ((if ([] : List Char) = [] then trim "sys".toList else trim ([] : List Char)) ++
        '\n' :: "<|im_start|>user\n".toList ++
        List.flatten (List.replicate (qwenImageCount
          [QContentPart.imageUrl "http://x/a.png".toList, QContentPart.text "hi".toList])
          qwenSentinel) ++
        trim (qwenTextCollect [QContentPart.imageUrl "http://x/a.png".toList,
          QContentPart.text "hi".toList]) ++ "<|im_end|>".toList) :=
  ⟨rfl, qwen2vl_url_image_rendering (fun _ => none) [] "sys".toList
    [QContentPart.imageUrl "http://x/a.png".toList, QContentPart.text "hi".toList] rfl⟩

end LlamaEdge
